import Mathlib

/-!
Verification development for the viberules repository (Go).

The development shallowly embeds the core of the repository:
  - the target registry (targets.go / src/unnamed/part_000),
  - the symlink manager (internal/core/symlink.go),
  - the gitignore managed-section rewriter (addToGitignore in main.go),
  - the config store (loadConfig / saveConfig in main.go),
  - the CLI-level operations initProject / addTarget / removeTarget.

Filesystems are modelled as finite association lists from cleaned path
component lists to entries (regular file, directory, or symlink).  Machine
strings are Lean String values; the gitignore rewriter, which manipulates
raw text, is embedded over List Char so that the line-splitting functions
of the Go strings package can be reasoned about by structural induction.
-/

set_option maxRecDepth 8000

namespace Viberules

/-! ## Character-list utilities (strings.Split, strings.Contains, ...) -/

/-- Split a character list at every occurrence of the separator character.
Mirrors Go strings.Split(s, sep) for a one-character separator: the result
always has one more element than the number of separator occurrences. -/
def splitChar (sep : Char) : List Char → List (List Char)
  | [] => [[]]
  | c :: rest =>
    if c = sep then [] :: splitChar sep rest
    else
      match splitChar sep rest with
      | [] => [[c]]
      | l :: ls => (c :: l) :: ls

/-- Join a list of lines with the given separator character; inverse of
splitChar.  Mirrors Go strings.Join(lines, sep). -/
def joinChar (sep : Char) : List (List Char) → List Char
  | [] => []
  | [l] => l
  | l :: ls => l ++ sep :: joinChar sep ls

/-- Substring test, mirroring Go strings.Contains(s, pat). -/
def containsSub (s pat : List Char) : Bool :=
  match s with
  | [] => pat.isPrefixOf ([] : List Char)
  | _ :: rest => pat.isPrefixOf s || containsSub rest pat

/-- Drop every trailing newline character, mirroring
Go strings.TrimRight(s, "\n"). -/
def trimNl (s : List Char) : List Char :=
  ((s.reverse).dropWhile (fun c => c = '\n')).reverse

/-! ## Path model (filepath.Clean / filepath.Join / filepath.Dir)

Paths in the repository are always relative, so the model treats a path as
the list of its components after lexical cleaning: "." and empty components
are dropped and ".." cancels the preceding non-".." component, exactly the
lexical algorithm of filepath.Clean restricted to relative paths. -/

/-- One step of the lexical cleaning stack; the accumulator holds the
already-cleaned components in reverse order. -/
def cleanStack (acc : List String) (c : String) : List String :=
  if c = "" ∨ c = "." then acc
  else if c = ".." then
    match acc with
    | [] => [".."]
    | a :: rest => if a = ".." then ".." :: acc else rest
  else c :: acc

/-- Fold the cleaning stack over a list of raw components. -/
def normFold (init : List String) (cs : List String) : List String :=
  cs.foldl cleanStack init

/-- Raw components of a path string, split on the slash character. -/
def rawParts (p : String) : List String :=
  (splitChar '/' p.data).map (fun cs => String.mk cs)

/-- Cleaned component list of a path string; filepath.Clean up to the
string/list-of-components representation. -/
def cleanParts (p : String) : List String :=
  (normFold [] (rawParts p)).reverse

/-- Cleaned path as a string; filepath.Clean (an empty component list
renders as "."). -/
def cleanStr (p : String) : String :=
  match cleanParts p with
  | [] => "."
  | c :: cs => cs.foldl (fun a b => a ++ "/" ++ b) c

/-- Component list of filepath.Dir of an already-cleaned path. -/
def dirParts (p : List String) : List String := p.dropLast

/-- Resolve a relative path string against a base component list;
filepath.Join(base, rel) followed by cleaning. -/
def resolveFrom (base : List String) (rel : String) : List String :=
  (normFold base.reverse (rawParts rel)).reverse

/-! ## Filesystem model -/

/-- A filesystem entry: regular file with content, directory, or symbolic
link holding its recorded destination text. -/
inductive Entry where
  | file (content : String)
  | dir
  | symlink (dest : String)
deriving DecidableEq

/-- Is the entry a symbolic link? -/
def Entry.isLink : Entry → Bool
  | .symlink _ => true
  | _ => false

/-- A filesystem is a finite association list from cleaned component lists
to entries; earlier bindings shadow later ones. -/
abbrev FS := List (List String × Entry)

/-- Look up the entry at a path (os.Lstat: does not follow links). -/
def fsGet : FS → List String → Option Entry
  | [], _ => none
  | (q, e) :: rest, p => if q = p then some e else fsGet rest p

/-- Remove every binding for a path. -/
def fsErase : FS → List String → FS
  | [], _ => []
  | (q, e) :: rest, p => if q = p then fsErase rest p else (q, e) :: fsErase rest p

/-- Bind a path to an entry, shadowing and erasing any previous binding. -/
def fsSet (fs : FS) (p : List String) (e : Entry) : FS :=
  (p, e) :: fsErase fs p

/-- Follow the chain of symlinks starting at a path (os.Stat on the final
path component; each link destination is resolved relative to the directory
containing the link).  Fuel bounds the chain length; a dangling or cyclic
chain yields none. -/
def statEntry (fs : FS) : Nat → List String → Option Entry
  | 0, _ => none
  | fuel + 1, p =>
    match fsGet fs p with
    | some (.symlink d) => statEntry fs fuel (resolveFrom (dirParts p) d)
    | e => e

/-- os.Stat with the standard fuel bound of one more than the filesystem
size (any longer chain necessarily loops). -/
def statFollow (fs : FS) (p : List String) : Option Entry :=
  statEntry fs (fs.length + 1) p

/-! ## Target registry (src/unnamed/part_000) -/

/-- SymlinkDef defines a symlink mapping: a relative source path (the rules
file, relative to the directory containing the link) and the target path at
which the link is created. -/
structure SymlinkDef where
  source : String
  target : String
deriving DecidableEq

/-- Target represents an AI assistant target with its symlink paths. -/
structure Target where
  name : String
  links : List SymlinkDef
deriving DecidableEq

/-- GetAllTargets returns all supported AI assistant targets.  The source
builds the path literals with filepath.Join, whose results on these
constant arguments are written out here. -/
def GetAllTargets : List Target :=
  [ { name := "claude",
      links := [{ source := ".viberules/rules.md", target := "CLAUDE.md" }] },
    { name := "amazonq",
      links := [{ source := "../../.viberules/rules.md",
                  target := ".amazonq/rules/AMAZONQ.md" }] },
    { name := "gemini",
      links := [{ source := ".viberules/rules.md", target := "GEMINI.md" }] },
    { name := "codex",
      links := [{ source := ".viberules/rules.md", target := "AGENTS.md" }] } ]

/-- GetRequiredDirectories returns directories that need to be created. -/
def GetRequiredDirectories : List String := [".amazonq/rules"]

/-! ## Symlink manager (internal/core/symlink.go)

Each operation returns an optional error message, the resulting filesystem,
and the list of link mutation events it performed, in order.  The events
are used to settle the ordering claim about the config store. -/

/-- Mutation events recorded by the embedded operations. -/
inductive Event where
  | configWrite
  | linkCreate (p : List String)
  | linkRemove (p : List String)
deriving DecidableEq

/-- Is the event a symlink mutation? -/
def Event.isLinkEvent : Event → Bool
  | .linkCreate _ => true
  | .linkRemove _ => true
  | _ => false

/-- Is the event a config-store write? -/
def Event.isConfigEvent : Event → Bool
  | .configWrite => true
  | _ => false

/-- Result of a filesystem operation: optional error, resulting filesystem,
and ordered mutation events. -/
structure FsOut where
  err : Option String
  fs : FS
  evs : List Event
deriving DecidableEq

/-- Core of removeSymlink over a cleaned path; disp is the cleaned path
string used in the error message.  Mirrors removeSymlink in symlink.go:
absent path is a no-op, a non-symlink entry is refused with a distinct
error and no deletion, a symlink is deleted. -/
def removeSymlinkP (fs : FS) (p : List String) (disp : String) : FsOut :=
  match fsGet fs p with
  | none => ⟨none, fs, []⟩
  | some (.symlink _) => ⟨none, fsErase fs p, [.linkRemove p]⟩
  | some _ => ⟨some ("refusing to remove " ++ disp ++ ": not a symlink"), fs, []⟩

/-- removeSymlink removes a symlink or file if it exists (symlink.go).  The
path is cleaned first; re-cleaning a cleaned path is the identity, so the
clean is applied once here. -/
def removeSymlink (fs : FS) (path : String) : FsOut :=
  removeSymlinkP fs (cleanParts path) (cleanStr path)

/-- Create a directory entry at one path (one os.Mkdir step inside
os.MkdirAll): an existing directory is a no-op, an existing non-directory
entry is an error. -/
def mkdirOne (fs : FS) (p : List String) : Option String × FS :=
  match fsGet fs p with
  | some .dir => (none, fs)
  | some _ => (some "failed to create directory: not a directory", fs)
  | none => (none, fsSet fs p .dir)

/-- Recursive worker for os.MkdirAll: create every prefix of the component
list in order, threading the filesystem. -/
def mkdirAllGo (fs : FS) (pre : List String) : List String → Option String × FS
  | [] => (none, fs)
  | c :: rest =>
    match mkdirOne fs (pre ++ [c]) with
    | (some e, fs') => (some e, fs')
    | (none, fs') => mkdirAllGo fs' (pre ++ [c]) rest

/-- os.MkdirAll on a cleaned component list. -/
def mkdirAll (fs : FS) (p : List String) : Option String × FS :=
  mkdirAllGo fs [] p

/-- os.Symlink(src, tgt): fails if anything exists at the target path,
otherwise records the link with its destination text. -/
def symlinkNew (fs : FS) (src : String) (tgt : List String) : Option String × FS :=
  match fsGet fs tgt with
  | none => (none, fsSet fs tgt (.symlink src))
  | some _ => (some "failed to create symlink: file exists", fs)

/-- createSymlink creates a symlink, removing an existing symlink if
necessary (symlink.go): clean both paths, safe-remove the target, create
the parent directory when the target is nested, then create the link. -/
def createSymlink (fs : FS) (source target : String) : FsOut :=
  let tgt := cleanParts target
  match removeSymlinkP fs tgt (cleanStr target) with
  | ⟨some e, fs₁, evs⟩ => ⟨some e, fs₁, evs⟩
  | ⟨none, fs₁, evs⟩ =>
    let td := dirParts tgt
    match (if td = [] then (none, fs₁) else mkdirAll fs₁ td) with
    | (some e, fs₂) => ⟨some e, fs₂, evs⟩
    | (none, fs₂) =>
      match symlinkNew fs₂ (cleanStr source) tgt with
      | (some e, fs₃) => ⟨some e, fs₃, evs⟩
      | (none, fs₃) => ⟨none, fs₃, evs ++ [.linkCreate tgt]⟩

/-- IsSymlinkValid checks if a symlink exists and points to the correct
target (symlink.go): false when nothing exists at the link path, when the
entry is not a symlink, when the cleaned recorded destination differs from
the cleaned expected source, or when following the link fails; true
otherwise. -/
def IsSymlinkValid (fs : FS) (linkPath expectedTarget : String) : Bool :=
  let lp := cleanParts linkPath
  let et := cleanParts expectedTarget
  match fsGet fs lp with
  | none => false
  | some (.file _) => false
  | some .dir => false
  | some (.symlink actual) =>
    if cleanParts actual ≠ et then false
    else (statFollow fs lp).isSome

/-- Create every directory in a list (the GetRequiredDirectories loop). -/
def mkdirList (fs : FS) : List String → Option String × FS
  | [] => (none, fs)
  | d :: ds =>
    match mkdirAll fs (cleanParts d) with
    | (some e, fs') => (some e, fs')
    | (none, fs') => mkdirList fs' ds

/-- Create the symlinks of a list of link definitions in order, failing
fast and accumulating events. -/
def createLinks (fs : FS) : List SymlinkDef → FsOut
  | [] => ⟨none, fs, []⟩
  | l :: ls =>
    match createSymlink fs l.source l.target with
    | ⟨some e, fs', evs⟩ => ⟨some e, fs', evs⟩
    | ⟨none, fs', evs⟩ =>
      match createLinks fs' ls with
      | ⟨r, fs'', evs'⟩ => ⟨r, fs'', evs ++ evs'⟩

/-- Remove the symlinks of a list of link definitions in order, failing
fast and accumulating events. -/
def removeLinks (fs : FS) : List SymlinkDef → FsOut
  | [] => ⟨none, fs, []⟩
  | l :: ls =>
    match removeSymlink fs l.target with
    | ⟨some e, fs', evs⟩ => ⟨some e, fs', evs⟩
    | ⟨none, fs', evs⟩ =>
      match removeLinks fs' ls with
      | ⟨r, fs'', evs'⟩ => ⟨r, fs'', evs ++ evs'⟩

/-- CreateTargetSymlinks creates symlinks for a specific target
(symlink.go): look the target up by name, create the required directories,
then create each of its links. -/
def CreateTargetSymlinks (fs : FS) (targetName : String) : FsOut :=
  match GetAllTargets.find? (fun t => t.name = targetName) with
  | none => ⟨some ("target " ++ targetName ++ " not found"), fs, []⟩
  | some t =>
    match mkdirList fs GetRequiredDirectories with
    | (some e, fs₁) => ⟨some e, fs₁, []⟩
    | (none, fs₁) => createLinks fs₁ t.links

/-- RemoveTargetSymlinks removes symlinks for a specific target
(symlink.go). -/
def RemoveTargetSymlinks (fs : FS) (targetName : String) : FsOut :=
  match GetAllTargets.find? (fun t => t.name = targetName) with
  | none => ⟨some ("target " ++ targetName ++ " not found"), fs, []⟩
  | some t => removeLinks fs t.links

/-- Create the symlinks of every target in registry order, after creating
the required directories (CreateAllSymlinks in symlink.go). -/
def createAllLoop (fs : FS) : List Target → FsOut
  | [] => ⟨none, fs, []⟩
  | t :: ts =>
    match createLinks fs t.links with
    | ⟨some e, fs', evs⟩ => ⟨some e, fs', evs⟩
    | ⟨none, fs', evs⟩ =>
      match createAllLoop fs' ts with
      | ⟨r, fs'', evs'⟩ => ⟨r, fs'', evs ++ evs'⟩

/-- CreateAllSymlinks creates symlinks for all AI assistant targets
(symlink.go). -/
def CreateAllSymlinks (fs : FS) : FsOut :=
  match mkdirList fs GetRequiredDirectories with
  | (some e, fs₁) => ⟨some e, fs₁, []⟩
  | (none, fs₁) => createAllLoop fs₁ GetAllTargets

/-! ## Ignore-section rewriter (addToGitignore in main.go)

The rewriter manipulates the raw text of .gitignore; it is embedded over
List Char.  The header constants below are the compatibility-critical
literals of main.go. -/

/-- gitignoreSectionPrefix: every managed sub-header starts with this. -/
def sectionHeaderMark : List Char := "# viberules".data

/-- gitignoreLocalMode. -/
def localModeMark : List Char := "# viberules (local mode".data

/-- gitignoreLocalFiles. -/
def localFilesMark : List Char := "# viberules local files".data

/-- The bare word searched for by the section-end test. -/
def vibWord : List Char := "viberules".data

/-- The managed section written in local mode (the fmt.Sprintf expansion in
addToGitignore). -/
def sectionLocal : List Char :=
  ("\n# viberules (local mode - entire directory ignored)\n.viberules/\n\n# viberules config file (always ignored)\n.viberules/.config.yaml\n\n# viberules local files (personal files only)\n*.local.md\n\n# viberules output files (symlinked)\n.amazonq/\nCLAUDE.md\nGEMINI.md\nAGENTS.md\n").data

/-- The managed section written in public mode. -/
def sectionPublic : List Char :=
  ("\n# viberules config file (always ignored)\n.viberules/.config.yaml\n\n# viberules local files (personal files only)\n*.local.md\n\n# viberules output files (symlinked)\n.amazonq/\nCLAUDE.md\nGEMINI.md\nAGENTS.md\n").data

/-- The line loop that removes a previously written managed section: a line
starting with the section header turns skipping on; while skipping, a
comment line that does not mention viberules ends the section and is kept;
every other skipped line is dropped. -/
def stripLines (skip : Bool) : List (List Char) → List (List Char)
  | [] => []
  | l :: ls =>
    if sectionHeaderMark.isPrefixOf l then stripLines true ls
    else if skip then
      if l.head? = some '#' ∧ ¬ (containsSub l vibWord = true) then l :: stripLines false ls
      else stripLines skip ls
    else l :: stripLines false ls

/-- The skip flag left over after running the strip loop on a line list. -/
def stripFlag (skip : Bool) : List (List Char) → Bool
  | [] => skip
  | l :: ls =>
    if sectionHeaderMark.isPrefixOf l then stripFlag true ls
    else if skip then
      if l.head? = some '#' ∧ ¬ (containsSub l vibWord = true) then stripFlag false ls
      else stripFlag skip ls
    else stripFlag false ls

/-- The mode-dependent managed section chosen by addToGitignore. -/
def theSection (mode : String) : List Char :=
  if mode = "local" then sectionLocal else sectionPublic

/-- Does the content mention one of the two recognized markers?  The Go
condition contains(contentStr, gitignoreLocalFiles) or
contains(contentStr, gitignoreLocalMode). -/
def hasMarker (content : List Char) : Bool :=
  containsSub content localFilesMark || containsSub content localModeMark

/-- The strip branch of addToGitignore: split into lines, drop the managed
section, rejoin, and trim trailing newlines. -/
def stripRewrite (content : List Char) : List Char :=
  trimNl (joinChar '\n' (stripLines false (splitChar '\n' content)))

/-- Append a newline to nonempty content that does not already end in
one. -/
def ensureNl (s : List Char) : List Char :=
  if s ≠ [] ∧ s.getLast? ≠ some '\n' then s ++ ['\n'] else s

/-- addToGitignore as a pure rewrite of the file content (main.go): pick
the mode-dependent section; if the content mentions a recognized marker,
strip the old section line-wise and trim trailing newlines; ensure a
trailing newline on nonempty content; append the fresh section. -/
def addToGitignore (mode : String) (content : List Char) : List Char :=
  ensureNl (if hasMarker content then stripRewrite content else content) ++ theSection mode

/-- Number of lines of the content that start with the local-files header
marker of the managed section. -/
def markerLineCount (s : List Char) : Nat :=
  (splitChar '\n' s).countP (fun l => localFilesMark.isPrefixOf l)

/-! ## Config store (main.go) -/

/-- Config holds the project mode and the enabled target names. -/
structure Config where
  mode : String
  targets : List String
deriving DecidableEq

/-- The closed list of valid target names. -/
def validTargets : List String := ["claude", "amazonq", "gemini", "codex"]

/-- isValidTarget (main.go). -/
def isValidTarget (target : String) : Bool := validTargets.contains target

/-- Modelled from the spec: YAML encoding and decoding are a black-box
structured store, so the persisted config file is modelled as the
structured value itself together with the byte length of its marshalled
document, mode colon space value newline, the targets key line, and one
four-space-indented dash item line per target name. -/
def yamlLen (c : Config) : Nat :=
  6 + c.mode.length + 1 + 9 + (c.targets.map (fun t => 7 + t.length)).sum

/-- maxConfigSize: the 1 MiB load bound of loadConfig. -/
def maxConfigSize : Nat := 1 * 1024 * 1024

/-- Process state: the filesystem, the persisted config file content (none
when the file does not exist), and the ordered mutation events of the
current invocation. -/
structure St where
  fs : FS
  config : Option Config
  events : List Event
deriving DecidableEq

/-- fileExists (main.go): os.Stat succeeds, following symlinks. -/
def fileExistsSt (st : St) (p : String) : Bool :=
  (statFollow st.fs (cleanParts p)).isSome

/-- loadConfig (main.go): default config when no file exists; reject a file
larger than the 1 MiB bound; coerce a mode that is neither local nor public
to local. -/
def loadConfig (st : St) : Except String Config :=
  match st.config with
  | none => .ok ⟨"local", validTargets⟩
  | some c =>
    if yamlLen c > maxConfigSize then .error "config file too large"
    else .ok ⟨if c.mode ≠ "local" ∧ c.mode ≠ "public" then "local" else c.mode, c.targets⟩

/-- saveConfig (main.go): marshal the whole structure and overwrite the
persisted file; a config-write event is recorded. -/
def saveConfig (st : St) (c : Config) : St :=
  { st with config := some c, events := st.events ++ [.configWrite] }

/-- loadEnabledTargets (main.go). -/
def loadEnabledTargets (st : St) : Except String (List String) :=
  (loadConfig st).map (fun c => c.targets)

/-- saveEnabledTargets (main.go): read-modify-write of the targets field,
preserving the mode. -/
def saveEnabledTargets (st : St) (targets : List String) : Except String St :=
  match loadConfig st with
  | .error e => .error e
  | .ok c => .ok (saveConfig st ⟨c.mode, targets⟩)

/-- getProjectMode (main.go): current mode with fallback to local. -/
def getProjectMode (st : St) : String :=
  match loadConfig st with
  | .error _ => "local"
  | .ok c => c.mode

/-! ## CLI-level operations (main.go) -/

/-- The default rules template written by initProject for a fresh project
(the rulesContent raw string literal in main.go). -/
def defaultRulesContent : String :=
  "# AI Assistant Rules\n\n> ⚠️ IMPORTANT: Edit THIS FILE (rules.md) to update rules for ALL AI assistants\n> Changes here automatically apply to Claude, Amazon Q, Gemini, Codex, etc.\n\n## Project Overview\nDescribe your project, tech stack, and coding standards here.\n\n## Coding Standards\n- Use TypeScript with strict mode\n- Follow ESLint configuration\n- Write unit tests for all functions\n- Use descriptive variable names\n\n## Architecture Guidelines\n- Follow clean architecture principles\n- Separate business logic from UI\n- Use dependency injection\n\n## Git Workflow\n- Use conventional commits\n- Create feature branches\n- Require code review for main branch\n\n---\n*This file is automatically linked to all AI assistants via viberules*\n"

/-- The path of the canonical rules file. -/
def rulesPath : String := ".viberules/rules.md"

/-- addTarget (main.go): validate the name, require the rules file, load
the enabled targets, succeed unchanged when the target is already enabled,
otherwise save the grown target list and then create the symlinks of the
target. -/
def addTargetOp (st : St) (target : String) : Except String St :=
  if ¬ (isValidTarget target = true) then .error ("invalid target: " ++ target)
  else if ¬ (fileExistsSt st rulesPath = true) then
    .error ".viberules/rules.md not found. Run init first"
  else
    match loadEnabledTargets st with
    | .error e => .error ("failed to load target settings: " ++ e)
    | .ok enabled =>
      if enabled.contains target then .ok st
      else
        match saveEnabledTargets st (enabled ++ [target]) with
        | .error e => .error ("failed to save target settings: " ++ e)
        | .ok st₁ =>
          match CreateTargetSymlinks st₁.fs target with
          | ⟨some e, _, _⟩ => .error ("failed to create symlinks: " ++ e)
          | ⟨none, fs', evs⟩ => .ok { st₁ with fs := fs', events := st₁.events ++ evs }

/-- removeTarget (main.go): validate the name, load the enabled targets,
succeed unchanged when the target is not enabled, otherwise save the
filtered target list and then remove the symlinks of the target. -/
def removeTargetOp (st : St) (target : String) : Except String St :=
  if ¬ (isValidTarget target = true) then .error ("invalid target: " ++ target)
  else
    match loadEnabledTargets st with
    | .error e => .error ("failed to load target settings: " ++ e)
    | .ok enabled =>
      let newTargets := enabled.filter (fun t => t ≠ target)
      if ¬ (enabled.contains target = true) then .ok st
      else
        match saveEnabledTargets st newTargets with
        | .error e => .error ("failed to save target settings: " ++ e)
        | .ok st₁ =>
          match RemoveTargetSymlinks st₁.fs target with
          | ⟨some e, _, _⟩ => .error ("failed to remove symlinks: " ++ e)
          | ⟨none, fs', evs⟩ => .ok { st₁ with fs := fs', events := st₁.events ++ evs }

/-- The gitignore update step of initProject: read the file when its entry
is a regular file, rewrite, and write back; a missing file is treated as
empty content. -/
def updateGitignore (st : St) : St :=
  match fsGet st.fs [".gitignore"] with
  | some (.file s) =>
    let rewritten := Entry.file (String.mk (addToGitignore (getProjectMode st) s.data))
    { st with fs := fsSet st.fs [".gitignore"] rewritten }
  | some _ => st
  | none =>
    let rewritten := Entry.file (String.mk (addToGitignore (getProjectMode st) []))
    { st with fs := fsSet st.fs [".gitignore"] rewritten }

/-- Final steps of initProject: create all symlinks, then save the default
config. -/
def initFinish (st₃ : St) : Except String St :=
  match CreateAllSymlinks st₃.fs with
  | ⟨some e, _, _⟩ => .error ("failed to create symlinks: " ++ e)
  | ⟨none, fs₄, evs⟩ =>
    .ok (saveConfig { st₃ with fs := fs₄, events := st₃.events ++ evs }
          ⟨"local", validTargets⟩)

/-- initProject (main.go): refuse to reinitialize without force; create the
config directory; create the rules file only when missing; update the
gitignore (failures there are only warned about); create all symlinks; save
the default config last. -/
def initProjectOp (force : Bool) (st : St) : Except String St :=
  if (statFollow st.fs [".viberules"] = some .dir) ∧ ¬ (force = true) then
    .error ".viberules directory already exists. Use force to reinitialize"
  else
    match mkdirAll st.fs [".viberules"] with
    | (some e, _) => .error ("failed to create .viberules directory: " ++ e)
    | (none, fs₁) =>
      let st₁ : St := { st with fs := fs₁ }
      let st₂ : St :=
        if fileExistsSt st₁ rulesPath then st₁
        else { st₁ with fs := fsSet st₁.fs (cleanParts rulesPath) (.file defaultRulesContent) }
      initFinish (updateGitignore st₂)

/-- True when no event satisfying p occurs strictly after an event
satisfying q. -/
def noneAfter (p q : Event → Bool) : List Event → Bool
  | [] => true
  | e :: rest =>
    ((!q e) || rest.all (fun x => !(p x))) && noneAfter p q rest

/-- The event trace of an operation result (empty on failure). -/
def opEvents (r : Except String St) : List Event :=
  match r with
  | .ok s => s.events
  | .error _ => []

/-! ## Auxiliary notions used by the proofs -/

/-- Drop trailing empty lines from a line list. -/
def dropTrailingNils (S : List (List Char)) : List (List Char) :=
  ((S.reverse).dropWhile (fun l => l.isEmpty)).reverse

/-- The list of nonempty path component chains built by os.MkdirAll from a
base and the remaining components. -/
def prefixesFrom (pre : List String) : List String → List (List String)
  | [] => []
  | c :: rest => (pre ++ [c]) :: prefixesFrom (pre ++ [c]) rest

/-! ## Concrete states used by counterexamples and witnesses -/

/-- A freshly initialized project state whose config does not list the
claude target yet. -/
def stAdd : St :=
  { fs := [([".viberules"], .dir), ([".viberules", "rules.md"], .file "r")],
    config := some ⟨"local", ["amazonq", "gemini", "codex"]⟩,
    events := [] }

/-- A state in which the claude target is not enabled but a stray
CLAUDE.md symlink exists. -/
def stStray : St :=
  { fs := [(["CLAUDE.md"], .symlink ".viberules/rules.md")],
    config := some ⟨"local", ["amazonq"]⟩,
    events := [] }

/-- A state with the claude target enabled and its link present. -/
def stRem : St :=
  { fs := [([".viberules"], .dir), ([".viberules", "rules.md"], .file "r"),
           (["CLAUDE.md"], .symlink ".viberules/rules.md")],
    config := some ⟨"local", ["claude", "gemini"]⟩,
    events := [] }

/-- The state after removing the claude target from stRem. -/
def stRemAfter : St :=
  match removeTargetOp stRem "claude" with
  | .ok s => s
  | .error _ => stRem

/-- A target list long enough that its marshalled config document exceeds
the 1 MiB load bound. -/
def bigTargets : List String := List.replicate 120000 "claude"

/-- The state after initializing a fresh directory. -/
def stInitAfter : St :=
  match initProjectOp false ⟨[], none, []⟩ with
  | .ok s => s
  | .error _ => ⟨[], none, []⟩

/-- The state after adding the claude target to stAdd. -/
def stAddAfter : St :=
  match addTargetOp stAdd "claude" with
  | .ok s => s
  | .error _ => stAdd

/-! # Helper lemmas on the filesystem model -/

theorem fsGet_erase_self (fs : FS) (p : List String) : fsGet (fsErase fs p) p = none := by
  induction fs with
  | nil => rfl
  | cons kv rest ih =>
    obtain ⟨q, e⟩ := kv
    by_cases h : q = p
    · simp [fsErase, h, ih]
    · simp [fsErase, fsGet, h, ih]

theorem fsGet_erase_ne (fs : FS) (p q : List String) (h : q ≠ p) :
    fsGet (fsErase fs p) q = fsGet fs q := by
  induction fs with
  | nil => rfl
  | cons kv rest ih =>
    obtain ⟨r, e⟩ := kv
    by_cases hr : r = p
    · subst hr
      simp [fsErase, fsGet, Ne.symm h, ih]
    · by_cases hq : r = q
      · subst hq
        simp [fsErase, fsGet, hr]
      · simp [fsErase, fsGet, hr, hq, ih]

theorem fsGet_set_self (fs : FS) (p : List String) (e : Entry) :
    fsGet (fsSet fs p e) p = some e := by
  simp [fsSet, fsGet]

theorem fsGet_set_ne (fs : FS) (p q : List String) (e : Entry) (h : q ≠ p) :
    fsGet (fsSet fs p e) q = fsGet fs q := by
  simp [fsSet, fsGet, Ne.symm h, fsGet_erase_ne fs p q h]

theorem fsErase_erase (fs : FS) (p : List String) :
    fsErase (fsErase fs p) p = fsErase fs p := by
  induction fs with
  | nil => rfl
  | cons kv rest ih =>
    obtain ⟨q, e⟩ := kv
    by_cases h : q = p
    · simp [fsErase, h, ih]
    · simp [fsErase, h, ih]

theorem fsErase_set (fs : FS) (p : List String) (e : Entry) :
    fsErase (fsSet fs p e) p = fsErase fs p := by
  simp [fsSet, fsErase, fsErase_erase]

theorem fsGet_erase_none (fs : FS) (p q : List String) (h : fsGet fs q = none) :
    fsGet (fsErase fs p) q = none := by
  by_cases hq : q = p
  · subst hq; exact fsGet_erase_self fs q
  · rw [fsGet_erase_ne fs p q hq]; exact h

/-! # Helper lemmas on the recorded events -/

theorem evs_removeSymlinkP (fs : FS) (p : List String) (d : String) :
    ∀ e ∈ (removeSymlinkP fs p d).evs, e.isLinkEvent = true := by
  intro e he
  unfold removeSymlinkP at he
  split at he
  · simp at he
  · simp at he; subst he; rfl
  · simp at he

theorem evs_createSymlink (fs : FS) (s t : String) :
    ∀ e ∈ (createSymlink fs s t).evs, e.isLinkEvent = true := by
  intro e he
  unfold createSymlink at he
  dsimp only at he
  split at he
  next e₁ fs₁ evs heq =>
    have := evs_removeSymlinkP fs (cleanParts t) (cleanStr t)
    rw [heq] at this
    exact this e he
  next fs₁ evs heq =>
    have hrm := evs_removeSymlinkP fs (cleanParts t) (cleanStr t)
    rw [heq] at hrm
    split at he
    · exact hrm e he
    · split at he
      · exact hrm e he
      · simp at he
        rcases he with he | he
        · exact hrm e he
        · subst he; rfl

theorem evs_createLinks (fs : FS) (ls : List SymlinkDef) :
    ∀ e ∈ (createLinks fs ls).evs, e.isLinkEvent = true := by
  induction ls generalizing fs with
  | nil => intro e he; simp [createLinks] at he
  | cons l rest ih =>
    intro e he
    unfold createLinks at he
    split at he
    next e₁ fs₁ evs heq =>
      have := evs_createSymlink fs l.source l.target
      rw [heq] at this
      exact this e he
    next fs₁ evs heq =>
      have hcs := evs_createSymlink fs l.source l.target
      rw [heq] at hcs
      split at he
      next r fs₂ evs₂ heq₂ =>
        simp at he
        rcases he with he | he
        · exact hcs e he
        · have := ih fs₁
          rw [heq₂] at this
          exact this e he

theorem evs_removeLinks (fs : FS) (ls : List SymlinkDef) :
    ∀ e ∈ (removeLinks fs ls).evs, e.isLinkEvent = true := by
  induction ls generalizing fs with
  | nil => intro e he; simp [removeLinks] at he
  | cons l rest ih =>
    intro e he
    unfold removeLinks at he
    split at he
    next e₁ fs₁ evs heq =>
      have := evs_removeSymlinkP fs (cleanParts l.target) (cleanStr l.target)
      rw [show removeSymlink fs l.target = removeSymlinkP fs (cleanParts l.target) (cleanStr l.target) from rfl] at heq
      rw [heq] at this
      exact this e he
    next fs₁ evs heq =>
      have hrm := evs_removeSymlinkP fs (cleanParts l.target) (cleanStr l.target)
      rw [show removeSymlink fs l.target = removeSymlinkP fs (cleanParts l.target) (cleanStr l.target) from rfl] at heq
      rw [heq] at hrm
      split at he
      next r fs₂ evs₂ heq₂ =>
        simp at he
        rcases he with he | he
        · exact hrm e he
        · have := ih fs₁
          rw [heq₂] at this
          exact this e he

theorem evs_createAllLoop (fs : FS) (ts : List Target) :
    ∀ e ∈ (createAllLoop fs ts).evs, e.isLinkEvent = true := by
  induction ts generalizing fs with
  | nil => intro e he; simp [createAllLoop] at he
  | cons t rest ih =>
    intro e he
    unfold createAllLoop at he
    split at he
    next e₁ fs₁ evs heq =>
      have := evs_createLinks fs t.links
      rw [heq] at this
      exact this e he
    next fs₁ evs heq =>
      have hcl := evs_createLinks fs t.links
      rw [heq] at hcl
      split at he
      next r fs₂ evs₂ heq₂ =>
        simp at he
        rcases he with he | he
        · exact hcl e he
        · have := ih fs₁
          rw [heq₂] at this
          exact this e he

theorem evs_CreateAllSymlinks (fs : FS) :
    ∀ e ∈ (CreateAllSymlinks fs).evs, e.isLinkEvent = true := by
  intro e he
  unfold CreateAllSymlinks at he
  split at he
  · simp at he
  next fs₁ heq =>
    exact evs_createAllLoop fs₁ GetAllTargets e he

theorem evs_CreateTargetSymlinks (fs : FS) (name : String) :
    ∀ e ∈ (CreateTargetSymlinks fs name).evs, e.isLinkEvent = true := by
  intro e he
  unfold CreateTargetSymlinks at he
  split at he
  · simp at he
  next t heq =>
    split at he
    · simp at he
    next fs₁ heq₂ =>
      exact evs_createLinks fs₁ t.links e he

theorem evs_RemoveTargetSymlinks (fs : FS) (name : String) :
    ∀ e ∈ (RemoveTargetSymlinks fs name).evs, e.isLinkEvent = true := by
  intro e he
  unfold RemoveTargetSymlinks at he
  split at he
  · simp at he
  next t heq =>
    exact evs_removeLinks fs t.links e he

theorem linkEvent_not_config (e : Event) (h : e.isLinkEvent = true) :
    e.isConfigEvent = false := by
  cases e <;> simp [Event.isLinkEvent, Event.isConfigEvent] at h ⊢

theorem noneAfter_of_no_p (p q : Event → Bool) (evs : List Event)
    (h : ∀ e ∈ evs, p e = false) : noneAfter p q evs = true := by
  induction evs with
  | nil => rfl
  | cons e rest ih =>
    simp only [noneAfter, Bool.and_eq_true]
    constructor
    · have hall : rest.all (fun x => !(p x)) = true := by
        rw [List.all_eq_true]
        intro x hx
        simp [h x (List.mem_cons_of_mem e hx)]
      simp [hall]
    · exact ih (fun x hx => h x (List.mem_cons_of_mem e hx))

theorem noneAfter_config_last (evs : List Event)
    (h : ∀ e ∈ evs, e.isConfigEvent = false) :
    noneAfter Event.isLinkEvent Event.isConfigEvent (evs ++ [.configWrite]) = true := by
  induction evs with
  | nil => rfl
  | cons e rest ih =>
    simp only [List.cons_append, noneAfter, Bool.and_eq_true]
    refine ⟨?_, ih (fun x hx => h x (List.mem_cons_of_mem e hx))⟩
    simp [h e (List.mem_cons_self e rest)]

theorem noneAfter_config_first (evs : List Event)
    (h : ∀ e ∈ evs, e.isConfigEvent = false) :
    noneAfter Event.isConfigEvent Event.isLinkEvent (.configWrite :: evs) = true := by
  simp only [noneAfter, Bool.and_eq_true]
  constructor
  · simp [Event.isLinkEvent]
  · exact noneAfter_of_no_p _ _ evs h

theorem events_updateGitignore (st : St) : (updateGitignore st).events = st.events := by
  unfold updateGitignore
  split <;> rfl

/-! # Theorems

One theorem per claim, with witnesses for hypothesized theorems and
counterexamples for corrected claims, plus shared helper lemmas. -/

/-- C5: GetAllTargets returns exactly four targets named claude, amazonq,
gemini, codex, each with exactly one link definition; the link targets are
CLAUDE.md, GEMINI.md, AGENTS.md at the project root and
.amazonq/rules/AMAZONQ.md nested two directories deep; and for every link
definition the source path resolved from the directory containing the link
target reaches the canonical rules file .viberules/rules.md. -/
theorem registry_spec :
    GetAllTargets.length = 4 ∧
    GetAllTargets.map (fun t => t.name) = ["claude", "amazonq", "gemini", "codex"] ∧
    (∀ t ∈ GetAllTargets, t.links.length = 1) ∧
    GetAllTargets.map (fun t => t.links.map (fun l => l.target)) =
      [["CLAUDE.md"], [".amazonq/rules/AMAZONQ.md"], ["GEMINI.md"], ["AGENTS.md"]] ∧
    (∀ t ∈ GetAllTargets, ∀ l ∈ t.links,
      l.target = ".amazonq/rules/AMAZONQ.md" ∨ dirParts (cleanParts l.target) = []) ∧
    dirParts (cleanParts ".amazonq/rules/AMAZONQ.md") = [".amazonq", "rules"] ∧
    (∀ t ∈ GetAllTargets, ∀ l ∈ t.links,
      resolveFrom (dirParts (cleanParts l.target)) l.source = cleanParts ".viberules/rules.md") := by
  decide

/-- C1: for a path at which a non-symlink entry exists, removeSymlink fails
with the distinct not-a-symlink error and deletes nothing, so the path
still holds the same entry afterward; for a path at which nothing exists it
succeeds as a no-op. -/
theorem removeSymlink_safety (fs : FS) (path : String) :
    (∀ e, fsGet fs (cleanParts path) = some e → e.isLink = false →
      removeSymlink fs path =
        ⟨some ("refusing to remove " ++ cleanStr path ++ ": not a symlink"), fs, []⟩ ∧
      fsGet (removeSymlink fs path).fs (cleanParts path) = some e) ∧
    (fsGet fs (cleanParts path) = none → removeSymlink fs path = ⟨none, fs, []⟩) := by
  constructor
  · intro e he hnl
    cases e with
    | file s => simp [removeSymlink, removeSymlinkP, he]
    | dir => simp [removeSymlink, removeSymlinkP, he]
    | symlink d => simp [Entry.isLink] at hnl
  · intro h
    simp [removeSymlink, removeSymlinkP, h]

/-- Witness for the removeSymlink safety theorem at a regular file and at
an absent path. -/
theorem removeSymlink_safety_witness :
    (removeSymlink [(["CLAUDE.md"], Entry.file "x")] "CLAUDE.md" =
      ⟨some ("refusing to remove " ++ cleanStr "CLAUDE.md" ++ ": not a symlink"),
        [(["CLAUDE.md"], Entry.file "x")], []⟩) ∧
    removeSymlink [] "GEMINI.md" = ⟨none, [], []⟩ :=
  ⟨((removeSymlink_safety [(["CLAUDE.md"], Entry.file "x")] "CLAUDE.md").1
      (Entry.file "x") (by decide) (by decide)).1,
    (removeSymlink_safety [] "GEMINI.md").2 (by decide)⟩

/-- C4: IsSymlinkValid never fails and returns false when nothing exists at
the link path, when the entry there is a regular file or a directory, when
the cleaned recorded destination of the symlink differs from the cleaned
expected source, or when following the link fails; it returns true exactly
when the entry is a symlink whose cleaned destination equals the cleaned
expected source and following the link succeeds. -/
theorem isSymlinkValid_spec (fs : FS) (linkPath expectedTarget : String) :
    (fsGet fs (cleanParts linkPath) = none →
      IsSymlinkValid fs linkPath expectedTarget = false) ∧
    (∀ s, fsGet fs (cleanParts linkPath) = some (.file s) →
      IsSymlinkValid fs linkPath expectedTarget = false) ∧
    (fsGet fs (cleanParts linkPath) = some .dir →
      IsSymlinkValid fs linkPath expectedTarget = false) ∧
    (∀ d, fsGet fs (cleanParts linkPath) = some (.symlink d) →
      cleanParts d ≠ cleanParts expectedTarget →
      IsSymlinkValid fs linkPath expectedTarget = false) ∧
    (∀ d, fsGet fs (cleanParts linkPath) = some (.symlink d) →
      statFollow fs (cleanParts linkPath) = none →
      IsSymlinkValid fs linkPath expectedTarget = false) ∧
    (IsSymlinkValid fs linkPath expectedTarget = true ↔
      ∃ d, fsGet fs (cleanParts linkPath) = some (.symlink d) ∧
        cleanParts d = cleanParts expectedTarget ∧
        (statFollow fs (cleanParts linkPath)).isSome = true) := by
  refine ⟨?_, ?_, ?_, ?_, ?_, ?_⟩
  · intro h; simp [IsSymlinkValid, h]
  · intro s h; simp [IsSymlinkValid, h]
  · intro h; simp [IsSymlinkValid, h]
  · intro d h hne; simp [IsSymlinkValid, h, hne]
  · intro d h hstat; simp [IsSymlinkValid, h, hstat]
  · cases hfg : fsGet fs (cleanParts linkPath) with
    | none => simp [IsSymlinkValid, hfg]
    | some e =>
      cases e with
      | file s => simp [IsSymlinkValid, hfg]
      | dir => simp [IsSymlinkValid, hfg]
      | symlink d =>
        by_cases hd : cleanParts d = cleanParts expectedTarget
        · simp [IsSymlinkValid, hfg, hd]
        · simp [IsSymlinkValid, hfg, hd]

/-- Witness for the IsSymlinkValid theorem: a valid link is accepted and a
wrong-destination link is rejected, at concrete filesystems. -/
theorem isSymlinkValid_spec_witness :
    IsSymlinkValid [([".viberules"], Entry.dir), ([".viberules", "rules.md"], Entry.file "r"),
      (["CLAUDE.md"], Entry.symlink ".viberules/rules.md")] "CLAUDE.md" ".viberules/rules.md" = true ∧
    IsSymlinkValid [(["GEMINI.md"], Entry.symlink "elsewhere.md")] "GEMINI.md" ".viberules/rules.md" = false :=
  ⟨(isSymlinkValid_spec [([".viberules"], Entry.dir), ([".viberules", "rules.md"], Entry.file "r"),
      (["CLAUDE.md"], Entry.symlink ".viberules/rules.md")] "CLAUDE.md" ".viberules/rules.md").2.2.2.2.2.mpr
      ⟨".viberules/rules.md", by decide, by decide, by decide⟩,
    (isSymlinkValid_spec [(["GEMINI.md"], Entry.symlink "elsewhere.md")] "GEMINI.md"
      ".viberules/rules.md").2.2.2.1 "elsewhere.md" (by decide) (by decide)⟩

/-- C7: loadConfig returns the default config without error when no
persisted file exists; rejects a persisted file whose marshalled size
exceeds 1 MiB; and silently coerces a mode that is neither local nor public
to local instead of failing. -/
theorem loadConfig_spec (st : St) :
    (st.config = none → loadConfig st = .ok ⟨"local", validTargets⟩) ∧
    (∀ c, st.config = some c → yamlLen c > maxConfigSize →
      loadConfig st = .error "config file too large") ∧
    (∀ c, st.config = some c → yamlLen c ≤ maxConfigSize →
      c.mode ≠ "local" → c.mode ≠ "public" →
      loadConfig st = .ok ⟨"local", c.targets⟩) := by
  refine ⟨?_, ?_, ?_⟩
  · intro h; simp [loadConfig, h]
  · intro c h hbig; simp [loadConfig, h, hbig]
  · intro c h hsize h1 h2
    have hnot : ¬ yamlLen c > maxConfigSize := by omega
    simp [loadConfig, h, hnot, h1, h2]

/-- Witness for the loadConfig theorem: default on a missing file, and
coercion of an invalid mode at a concrete state. -/
theorem loadConfig_spec_witness :
    loadConfig ⟨[], none, []⟩ = .ok ⟨"local", validTargets⟩ ∧
    loadConfig ⟨[], some ⟨"weird", ["claude"]⟩, []⟩ = .ok ⟨"local", ["claude"]⟩ :=
  ⟨(loadConfig_spec ⟨[], none, []⟩).1 rfl,
    (loadConfig_spec ⟨[], some ⟨"weird", ["claude"]⟩, []⟩).2.2 ⟨"weird", ["claude"]⟩ rfl
      (by decide) (by decide) (by decide)⟩

/-- C10: when the target is already present in the enabled list, addTarget
returns success with the state entirely unchanged: the config file is not
rewritten, no event is recorded, and no symlink is created, removed, or
repaired. -/
theorem addTarget_already_enabled (st : St) (X : String) (enabled : List String)
    (h1 : isValidTarget X = true)
    (h2 : fileExistsSt st rulesPath = true)
    (h3 : loadEnabledTargets st = .ok enabled)
    (h4 : X ∈ enabled) :
    addTargetOp st X = .ok st := by
  simp [addTargetOp, h1, h2, h3, h4]

/-- Witness for the addTarget frame theorem: adding claude to a state where
it is already enabled but its symlink is missing leaves the state
untouched. -/
theorem addTarget_already_enabled_witness :
    addTargetOp stRem "claude" = .ok stRem :=
  addTarget_already_enabled stRem "claude" ["claude", "gemini"]
    (by decide) (by decide) rfl (by decide)

theorem saveEnabledTargets_shape (st : St) (T : List String) (st₁ : St)
    (h : saveEnabledTargets st T = .ok st₁) :
    st₁.events = st.events ++ [Event.configWrite] ∧ st₁.fs = st.fs := by
  unfold saveEnabledTargets at h
  split at h
  · exact absurd h (by simp)
  · cases h
    exact ⟨rfl, rfl⟩

theorem addTarget_trace (st : St) (name : String) (st' : St)
    (h : addTargetOp st name = .ok st') :
    st'.events = st.events ∨
    ∃ evs, (∀ e ∈ evs, e.isLinkEvent = true) ∧
      st'.events = st.events ++ [Event.configWrite] ++ evs := by
  unfold addTargetOp at h
  split at h
  · exact absurd h (by simp)
  split at h
  · exact absurd h (by simp)
  split at h
  · exact absurd h (by simp)
  next enabled heq =>
    split at h
    · left; cases h; rfl
    · split at h
      · exact absurd h (by simp)
      next st₁ heq₁ =>
        split at h
        · exact absurd h (by simp)
        next fs' evs heq₂ =>
          cases h
          right
          refine ⟨evs, ?_, ?_⟩
          · intro e he
            have hl := evs_CreateTargetSymlinks st₁.fs name
            rw [heq₂] at hl
            exact hl e he
          · have hs := saveEnabledTargets_shape st _ st₁ heq₁
            simp [hs.1]

theorem removeTarget_trace (st : St) (name : String) (st' : St)
    (h : removeTargetOp st name = .ok st') :
    st'.events = st.events ∨
    ∃ evs, (∀ e ∈ evs, e.isLinkEvent = true) ∧
      st'.events = st.events ++ [Event.configWrite] ++ evs := by
  unfold removeTargetOp at h
  split at h
  · exact absurd h (by simp)
  split at h
  · exact absurd h (by simp)
  next enabled heq =>
    dsimp only at h
    split at h
    · left; cases h; rfl
    · split at h
      · exact absurd h (by simp)
      next st₁ heq₁ =>
        split at h
        · exact absurd h (by simp)
        next fs' evs heq₂ =>
          cases h
          right
          refine ⟨evs, ?_, ?_⟩
          · intro e he
            have hl := evs_RemoveTargetSymlinks st₁.fs name
            rw [heq₂] at hl
            exact hl e he
          · have hs := saveEnabledTargets_shape st _ st₁ heq₁
            simp [hs.1]

theorem initFinish_trace (st₃ st' : St) (h : initFinish st₃ = .ok st') :
    ∃ evs, (∀ e ∈ evs, e.isLinkEvent = true) ∧
      st'.events = st₃.events ++ evs ++ [Event.configWrite] := by
  unfold initFinish at h
  split at h
  · exact absurd h (by simp)
  next fs₄ evs heq =>
    cases h
    refine ⟨evs, ?_, ?_⟩
    · intro e he
      have hl := evs_CreateAllSymlinks st₃.fs
      rw [heq] at hl
      exact hl e he
    · simp [saveConfig]

theorem init_trace (force : Bool) (st st' : St)
    (h : initProjectOp force st = .ok st') :
    ∃ evs, (∀ e ∈ evs, e.isLinkEvent = true) ∧
      st'.events = st.events ++ evs ++ [Event.configWrite] := by
  unfold initProjectOp at h
  split at h
  · exact absurd h (by simp)
  · split at h
    · exact absurd h (by simp)
    next fs₁ heq₁ =>
      dsimp only at h
      obtain ⟨evs, hlink, hevs⟩ := initFinish_trace _ st' h
      refine ⟨evs, hlink, ?_⟩
      rw [hevs, events_updateGitignore]
      split <;> rfl

/-- C3 counterexample: adding the claude target writes the config store
before creating the symlink, so the config store is not written last in
every mutating operation: the add-target trace records a config write
followed by a symlink creation. -/
theorem configWrite_order_cex :
    noneAfter Event.isLinkEvent Event.isConfigEvent (opEvents (addTargetOp stAdd "claude")) =
      false := by
  decide

/-- C3 amended: initProject writes the config store last, after all symlink
mutations; addTarget and removeTarget instead write the config store first,
before any of their symlink mutations (on their traces no config write
follows a symlink mutation in initProject, and no symlink mutation precedes
the config write in addTarget and removeTarget). -/
theorem configWrite_order (st : St) (h0 : st.events = []) :
    (∀ force st', initProjectOp force st = .ok st' →
      noneAfter Event.isLinkEvent Event.isConfigEvent st'.events = true) ∧
    (∀ name st', addTargetOp st name = .ok st' →
      noneAfter Event.isConfigEvent Event.isLinkEvent st'.events = true) ∧
    (∀ name st', removeTargetOp st name = .ok st' →
      noneAfter Event.isConfigEvent Event.isLinkEvent st'.events = true) := by
  refine ⟨?_, ?_, ?_⟩
  · intro force st' h
    obtain ⟨evs, hlink, hevs⟩ := init_trace force st st' h
    rw [hevs, h0, List.nil_append]
    exact noneAfter_config_last evs (fun e he => linkEvent_not_config e (hlink e he))
  · intro name st' h
    rcases addTarget_trace st name st' h with hevs | ⟨evs, hlink, hevs⟩
    · rw [hevs, h0]; rfl
    · rw [hevs, h0, List.nil_append]
      exact noneAfter_config_first evs (fun e he => linkEvent_not_config e (hlink e he))
  · intro name st' h
    rcases removeTarget_trace st name st' h with hevs | ⟨evs, hlink, hevs⟩
    · rw [hevs, h0]; rfl
    · rw [hevs, h0, List.nil_append]
      exact noneAfter_config_first evs (fun e he => linkEvent_not_config e (hlink e he))

/-- Witness for the config-write ordering theorem on a fresh directory and
on a state about to add the claude target. -/
theorem configWrite_order_witness :
    noneAfter Event.isLinkEvent Event.isConfigEvent stInitAfter.events = true ∧
    noneAfter Event.isConfigEvent Event.isLinkEvent stAddAfter.events = true :=
  ⟨(configWrite_order ⟨[], none, []⟩ rfl).1 false stInitAfter rfl,
    (configWrite_order stAdd rfl).2.1 "claude" stAddAfter rfl⟩

theorem removeSymlinkP_absent (fs : FS) (p : List String) (d : String)
    (h : (removeSymlinkP fs p d).err = none) :
    fsGet (removeSymlinkP fs p d).fs p = none := by
  unfold removeSymlinkP at h ⊢
  split at h
  next hg => simp [hg]
  next hg => simp [fsGet_erase_self]
  next hg => simp at h

theorem removeSymlinkP_none_mono (fs : FS) (p q : List String) (d : String)
    (h : fsGet fs q = none) : fsGet (removeSymlinkP fs p d).fs q = none := by
  unfold removeSymlinkP
  split
  · exact h
  · exact fsGet_erase_none fs p q h
  · exact h

theorem removeLinks_none_mono (ls : List SymlinkDef) (fs fs' : FS) (r : Option String)
    (evs : List Event) (h : removeLinks fs ls = ⟨r, fs', evs⟩) (q : List String)
    (hq : fsGet fs q = none) : fsGet fs' q = none := by
  induction ls generalizing fs fs' r evs with
  | nil =>
    simp [removeLinks] at h
    rw [← h.2.1]
    exact hq
  | cons l rest ih =>
    unfold removeLinks at h
    split at h
    next e₁ fs₁ evs₁ heq =>
      have heq' : removeSymlinkP fs (cleanParts l.target) (cleanStr l.target) =
          ⟨some e₁, fs₁, evs₁⟩ := heq
      have hm := removeSymlinkP_none_mono fs (cleanParts l.target) q (cleanStr l.target) hq
      rw [heq'] at hm
      cases h
      exact hm
    next fs₁ evs₁ heq =>
      have heq' : removeSymlinkP fs (cleanParts l.target) (cleanStr l.target) =
          ⟨none, fs₁, evs₁⟩ := heq
      have h₁ : fsGet fs₁ q = none := by
        have hm := removeSymlinkP_none_mono fs (cleanParts l.target) q (cleanStr l.target) hq
        rw [heq'] at hm
        exact hm
      split at h
      next r₂ fs₂ evs₂ heq₂ =>
        have hres := ih fs₁ fs₂ r₂ evs₂ heq₂ h₁
        cases h
        exact hres

theorem removeLinks_absent (ls : List SymlinkDef) (fs fs' : FS) (evs : List Event)
    (h : removeLinks fs ls = ⟨none, fs', evs⟩) :
    ∀ l ∈ ls, fsGet fs' (cleanParts l.target) = none := by
  induction ls generalizing fs evs with
  | nil => intro l hl; simp at hl
  | cons l₀ rest ih =>
    intro l hl
    unfold removeLinks at h
    split at h
    next e₁ fs₁ evs₁ heq => exact absurd h (by simp)
    next fs₁ evs₁ heq =>
      have heq' : removeSymlinkP fs (cleanParts l₀.target) (cleanStr l₀.target) =
          ⟨none, fs₁, evs₁⟩ := heq
      split at h
      next r₂ fs₂ evs₂ heq₂ =>
        have hr₂ : r₂ = none := congrArg FsOut.err h
        have hf₂ : fs₂ = fs' := congrArg FsOut.fs h
        rw [hr₂, hf₂] at heq₂
        rcases List.mem_cons.mp hl with hl | hl
        · subst hl
          have h₁ : fsGet fs₁ (cleanParts l.target) = none := by
            have ha := removeSymlinkP_absent fs (cleanParts l.target) (cleanStr l.target)
              (by rw [heq'])
            rw [heq'] at ha
            exact ha
          exact removeLinks_none_mono rest fs₁ fs' none evs₂ heq₂ _ h₁
        · exact ih fs₁ evs₂ heq₂ l hl

/-- C9 counterexample: when the claude target is not enabled but a stray
CLAUDE.md symlink exists, removeTarget succeeds yet the symlink of the
claude link definition is still present afterward, so success does not
imply absence of the symlinks of the named target. -/
theorem removeTarget_stray_cex :
    removeTargetOp stStray "claude" = .ok stStray ∧
    fsGet stStray.fs (cleanParts "CLAUDE.md") = some (.symlink ".viberules/rules.md") :=
  ⟨rfl, by decide⟩

/-- C9 amended: after removeTarget(X) succeeds the enabled-target list no
longer contains X; if X was enabled at the start, every symlink of X's link
definitions is absent afterward; and removing a target that is not enabled
succeeds without error and leaves the state (including any stray links)
unchanged. -/
theorem removeTarget_spec (st : St) (X : String) (st' : St)
    (h : removeTargetOp st X = .ok st') :
    (∀ cfg, loadConfig st' = .ok cfg → X ∉ cfg.targets) ∧
    (∀ enabled, loadEnabledTargets st = .ok enabled → X ∈ enabled →
      ∀ t, GetAllTargets.find? (fun x => x.name = X) = some t →
        ∀ l ∈ t.links, fsGet st'.fs (cleanParts l.target) = none) ∧
    (∀ enabled, loadEnabledTargets st = .ok enabled → X ∉ enabled → st' = st) := by
  unfold removeTargetOp at h
  split at h
  · exact absurd h (by simp)
  split at h
  · exact absurd h (by simp)
  next enabled₀ heq =>
    dsimp only at h
    split at h
    next hnc =>
      cases h
      refine ⟨?_, ?_, ?_⟩
      · intro cfg hcfg
        have hct : cfg.targets = enabled₀ := by
          unfold loadEnabledTargets at heq
          rw [hcfg] at heq
          simpa [Except.map] using heq
        rw [hct]
        simpa using hnc
      · intro enabled hl hX
        rw [heq] at hl
        cases hl
        exact absurd hX (by simpa using hnc)
      · intro _ _ _
        rfl
    next hc =>
      split at h
      · exact absurd h (by simp)
      next st₁ heq₁ =>
        split at h
        · exact absurd h (by simp)
        next fs' evs heq₂ =>
          cases h
          have hX₀ : X ∈ enabled₀ := by simpa using hc
          refine ⟨?_, ?_, ?_⟩
          · intro cfg hcfg
            have hsave : st₁.config = some ⟨(match loadConfig st with
                | .ok c => c.mode
                | .error _ => "local"), enabled₀.filter (fun t => t ≠ X)⟩ := by
              unfold saveEnabledTargets at heq₁
              split at heq₁
              · exact absurd heq₁ (by simp)
              next c hload =>
                cases heq₁
                simp [saveConfig, hload]
            simp only [loadConfig, hsave] at hcfg
            split at hcfg
            · exact absurd hcfg (by simp)
            · have : cfg.targets = enabled₀.filter (fun t => t ≠ X) := by
                cases hcfg
                rfl
              rw [this]
              simp
          · intro enabled hl hX t hfind l hlmem
            unfold RemoveTargetSymlinks at heq₂
            rw [hfind] at heq₂
            have hfs : st₁.fs = st.fs := (saveEnabledTargets_shape st _ st₁ heq₁).2
            exact removeLinks_absent t.links st₁.fs fs' evs heq₂ l hlmem
          · intro enabled hl hX
            rw [heq] at hl
            cases hl
            exact absurd hX₀ hX

/-- Witness for the removeTarget theorem: removing the enabled claude
target from a concrete state leaves a config without claude and no
CLAUDE.md entry. -/
theorem removeTarget_spec_witness :
    fsGet stRemAfter.fs (cleanParts "CLAUDE.md") = none := by
  have h : removeTargetOp stRem "claude" = .ok stRemAfter := by rfl
  exact (removeTarget_spec stRem "claude" stRemAfter h).2.1 ["claude", "gemini"] rfl
    (by decide) ⟨"claude", [⟨".viberules/rules.md", "CLAUDE.md"⟩]⟩ (by decide)
    ⟨".viberules/rules.md", "CLAUDE.md"⟩ (by decide)

theorem mem_prefixesFrom_length (cs : List String) (pre q : List String)
    (h : q ∈ prefixesFrom pre cs) : q.length ≤ pre.length + cs.length := by
  induction cs generalizing pre with
  | nil => simp [prefixesFrom] at h
  | cons c rest ih =>
    simp only [prefixesFrom, List.mem_cons] at h
    rcases h with h | h
    · subst h
      simp only [List.length_append, List.length_cons, List.length_nil]
      omega
    · have := ih (pre ++ [c]) h
      simp only [List.length_append, List.length_cons, List.length_nil] at this ⊢
      omega

theorem mem_prefixesFrom_dropLast_ne (p q : List String)
    (h : q ∈ prefixesFrom [] (dirParts p)) : q ≠ p := by
  intro hq
  have hlen := mem_prefixesFrom_length (dirParts p) [] q h
  rw [hq] at hlen
  simp only [dirParts, List.length_nil, Nat.zero_add, List.length_dropLast] at hlen
  cases hp : p with
  | nil =>
    rw [hp] at h
    simp [dirParts, prefixesFrom] at h
  | cons a rest =>
    rw [hp] at hlen
    simp only [List.length_cons] at hlen
    omega

theorem mkdirOne_noop (fs : FS) (p : List String) (h : fsGet fs p = some .dir) :
    mkdirOne fs p = (none, fs) := by
  unfold mkdirOne
  rw [h]

theorem mkdirOne_preserves_dir (fs : FS) (p q : List String)
    (h : fsGet fs q = some .dir) : fsGet (mkdirOne fs p).2 q = some .dir := by
  unfold mkdirOne
  cases hg : fsGet fs p with
  | none =>
    by_cases hq : q = p
    · subst hq; rw [hg] at h; cases h
    · simpa [fsGet_set_ne fs p q .dir hq] using h
  | some e => cases e <;> simpa using h

theorem mkdirAllGo_noop (cs : List String) (pre : List String) (fs : FS)
    (h : ∀ q ∈ prefixesFrom pre cs, fsGet fs q = some .dir) :
    mkdirAllGo fs pre cs = (none, fs) := by
  induction cs generalizing pre with
  | nil => rfl
  | cons c rest ih =>
    unfold mkdirAllGo
    rw [mkdirOne_noop fs (pre ++ [c]) (h (pre ++ [c]) (by simp [prefixesFrom]))]
    exact ih (pre ++ [c]) (fun q hq => h q (by simp [prefixesFrom, hq]))

theorem mkdirAllGo_preserves_dir (cs : List String) (pre : List String) (fs : FS)
    (q : List String) (h : fsGet fs q = some .dir) :
    ∀ e fs', mkdirAllGo fs pre cs = (e, fs') → fsGet fs' q = some .dir := by
  induction cs generalizing pre fs with
  | nil =>
    intro e fs' hgo
    cases hgo
    exact h
  | cons c rest ih =>
    intro e fs' hgo
    unfold mkdirAllGo at hgo
    split at hgo
    next e₁ fs₁ heqo =>
      cases hgo
      have := mkdirOne_preserves_dir fs (pre ++ [c]) q h
      rw [heqo] at this
      exact this
    next fs₁ heqo =>
      have h₁ := mkdirOne_preserves_dir fs (pre ++ [c]) q h
      rw [heqo] at h₁
      exact ih (pre ++ [c]) fs₁ h₁ e fs' hgo

theorem mkdirAllGo_dirs (cs : List String) (pre : List String) (fs fs' : FS)
    (h : mkdirAllGo fs pre cs = (none, fs')) :
    ∀ q ∈ prefixesFrom pre cs, fsGet fs' q = some .dir := by
  induction cs generalizing pre fs with
  | nil => intro q hq; simp [prefixesFrom] at hq
  | cons c rest ih =>
    intro q hq
    unfold mkdirAllGo at h
    split at h
    next e₁ fs₁ heqo => exact absurd h (by simp)
    next fs₁ heqo =>
      have hdir₁ : fsGet fs₁ (pre ++ [c]) = some .dir := by
        unfold mkdirOne at heqo
        split at heqo
        next hg => cases heqo; exact hg
        next hg => exact absurd heqo (by simp)
        next hg => cases heqo; exact fsGet_set_self fs (pre ++ [c]) .dir
      simp only [prefixesFrom, List.mem_cons] at hq
      rcases hq with hq | hq
      · subst hq
        exact mkdirAllGo_preserves_dir rest (pre ++ [c]) fs₁ (pre ++ [c]) hdir₁ none fs' h
      · exact ih (pre ++ [c]) fs₁ h q hq

theorem removeSymlinkP_eq_link (fs : FS) (p : List String) (d dst : String)
    (h : fsGet fs p = some (.symlink dst)) :
    removeSymlinkP fs p d = ⟨none, fsErase fs p, [.linkRemove p]⟩ := by
  unfold removeSymlinkP
  rw [h]

theorem symlinkNew_eq_none (fs : FS) (s : String) (tgt : List String)
    (h : fsGet fs tgt = none) :
    symlinkNew fs s tgt = (none, fsSet fs tgt (.symlink s)) := by
  unfold symlinkNew
  rw [h]

theorem createSymlink_eq (fs : FS) (src tgt : String) (fs₁ fs₂ : FS) (evs₁ : List Event)
    (h1 : removeSymlinkP fs (cleanParts tgt) (cleanStr tgt) = ⟨none, fs₁, evs₁⟩)
    (h2 : (if dirParts (cleanParts tgt) = [] then ((none : Option String), fs₁)
           else mkdirAll fs₁ (dirParts (cleanParts tgt))) = (none, fs₂))
    (h3 : fsGet fs₂ (cleanParts tgt) = none) :
    createSymlink fs src tgt =
      ⟨none, fsSet fs₂ (cleanParts tgt) (.symlink (cleanStr src)),
        evs₁ ++ [.linkCreate (cleanParts tgt)]⟩ := by
  unfold createSymlink
  dsimp only
  rw [h1]
  dsimp only
  rw [h2]
  dsimp only
  rw [symlinkNew_eq_none fs₂ (cleanStr src) (cleanParts tgt) h3]

theorem createSymlink_success_shape (fs : FS) (src tgt : String)
    (h : (createSymlink fs src tgt).err = none) :
    ∃ fs₁ fs₂ evs₁,
      removeSymlinkP fs (cleanParts tgt) (cleanStr tgt) = ⟨none, fs₁, evs₁⟩ ∧
      (if dirParts (cleanParts tgt) = [] then ((none : Option String), fs₁)
        else mkdirAll fs₁ (dirParts (cleanParts tgt))) = (none, fs₂) ∧
      fsGet fs₂ (cleanParts tgt) = none := by
  unfold createSymlink at h
  dsimp only at h
  split at h
  next e₁ f₁ ev₁ heq => simp at h
  next f₁ ev₁ heq =>
    split at h
    next e₂ f₂ heq₂ => simp at h
    next f₂ heq₂ =>
      split at h
      next e₃ f₃ heq₃ => simp at h
      next f₃ heq₃ =>
        refine ⟨f₁, f₂, ev₁, heq, heq₂, ?_⟩
        unfold symlinkNew at heq₃
        split at heq₃
        next hg => exact hg
        next hg => exact absurd heq₃ (by simp)

theorem createSymlink_preserves_dir (fs : FS) (src tgt : String) (q : List String)
    (hne : q ≠ cleanParts tgt) (h : fsGet fs q = some .dir) :
    fsGet (createSymlink fs src tgt).fs q = some .dir := by
  unfold createSymlink
  dsimp only
  rcases hr : removeSymlinkP fs (cleanParts tgt) (cleanStr tgt) with ⟨err₁, fs₁, evs₁⟩
  have h₁ : fsGet fs₁ q = some .dir := by
    unfold removeSymlinkP at hr
    split at hr
    · cases hr; exact h
    · cases hr; rw [fsGet_erase_ne fs (cleanParts tgt) q hne]; exact h
    · cases hr; exact h
  cases err₁ with
  | some e => exact h₁
  | none =>
    dsimp only
    rcases hm : (if dirParts (cleanParts tgt) = [] then ((none : Option String), fs₁)
        else mkdirAll fs₁ (dirParts (cleanParts tgt))) with ⟨e₂, fs₂⟩
    have h₂ : fsGet fs₂ q = some .dir := by
      split at hm
      · cases hm; exact h₁
      · exact mkdirAllGo_preserves_dir (dirParts (cleanParts tgt)) [] fs₁ q h₁ e₂ fs₂ hm
    cases e₂ with
    | some e => exact h₂
    | none =>
      dsimp only
      rcases hs : symlinkNew fs₂ (cleanStr src) (cleanParts tgt) with ⟨e₃, fs₃⟩
      have h₃ : fsGet fs₃ q = some .dir := by
        unfold symlinkNew at hs
        split at hs
        next hg =>
          cases hs
          rw [fsGet_set_ne fs₂ (cleanParts tgt) q _ hne]
          exact h₂
        next hg => cases hs; exact h₂
      cases e₃ with
      | some e => exact h₃
      | none => exact h₃

theorem createSymlink_rerun (fs : FS) (src tgt : String)
    (h : (createSymlink fs src tgt).err = none) :
    createSymlink (createSymlink fs src tgt).fs src tgt =
      ⟨none, (createSymlink fs src tgt).fs,
        [.linkRemove (cleanParts tgt), .linkCreate (cleanParts tgt)]⟩ := by
  obtain ⟨fs₁, fs₂, evs₁, h1, h2, h3⟩ := createSymlink_success_shape fs src tgt h
  have hout : createSymlink fs src tgt =
      ⟨none, fsSet fs₂ (cleanParts tgt) (.symlink (cleanStr src)),
        evs₁ ++ [.linkCreate (cleanParts tgt)]⟩ :=
    createSymlink_eq fs src tgt fs₁ fs₂ evs₁ h1 h2 h3
  rw [hout]
  have hget : fsGet (fsSet fs₂ (cleanParts tgt) (.symlink (cleanStr src))) (cleanParts tgt) =
      some (.symlink (cleanStr src)) := fsGet_set_self fs₂ (cleanParts tgt) _
  have h1' : removeSymlinkP (fsSet fs₂ (cleanParts tgt) (.symlink (cleanStr src)))
      (cleanParts tgt) (cleanStr tgt) =
      ⟨none, fsErase fs₂ (cleanParts tgt), [.linkRemove (cleanParts tgt)]⟩ := by
    rw [removeSymlinkP_eq_link _ _ _ _ hget, fsErase_set]
  have h2' : (if dirParts (cleanParts tgt) = [] then
        ((none : Option String), fsErase fs₂ (cleanParts tgt))
      else mkdirAll (fsErase fs₂ (cleanParts tgt)) (dirParts (cleanParts tgt))) =
      (none, fsErase fs₂ (cleanParts tgt)) := by
    by_cases htd : dirParts (cleanParts tgt) = []
    · rw [if_pos htd]
    · rw [if_neg htd]
      rw [if_neg htd] at h2
      have hdirs := mkdirAllGo_dirs (dirParts (cleanParts tgt)) [] fs₁ fs₂ h2
      exact mkdirAllGo_noop (dirParts (cleanParts tgt)) [] _ (fun q hq => by
        rw [fsGet_erase_ne fs₂ (cleanParts tgt) q
          (mem_prefixesFrom_dropLast_ne (cleanParts tgt) q hq)]
        exact hdirs q hq)
  have h3' : fsGet (fsErase fs₂ (cleanParts tgt)) (cleanParts tgt) = none :=
    fsGet_erase_self fs₂ (cleanParts tgt)
  have := createSymlink_eq (fsSet fs₂ (cleanParts tgt) (.symlink (cleanStr src))) src tgt
    (fsErase fs₂ (cleanParts tgt)) (fsErase fs₂ (cleanParts tgt))
    [.linkRemove (cleanParts tgt)] h1' h2' h3'
  rw [this]
  simp [fsSet, fsErase_erase]

theorem createLinks_single (fs : FS) (l : SymlinkDef) :
    createLinks fs [l] =
      ⟨(createSymlink fs l.source l.target).err, (createSymlink fs l.source l.target).fs,
        (createSymlink fs l.source l.target).evs⟩ := by
  unfold createLinks
  rcases hc : createSymlink fs l.source l.target with ⟨err, f, e⟩
  cases err with
  | some e₁ => rfl
  | none => simp [createLinks]

theorem mkdirList_noop (ds : List String) (fs : FS)
    (h : ∀ d ∈ ds, ∀ q ∈ prefixesFrom [] (cleanParts d), fsGet fs q = some .dir) :
    mkdirList fs ds = (none, fs) := by
  induction ds with
  | nil => rfl
  | cons d rest ih =>
    unfold mkdirList
    rw [show mkdirAll fs (cleanParts d) = (none, fs) from
      mkdirAllGo_noop (cleanParts d) [] fs (h d (by simp))]
    exact ih (fun d₂ hd₂ => h d₂ (by simp [hd₂]))

theorem mkdirList_preserves_dir (ds : List String) (fs : FS) (q : List String)
    (h : fsGet fs q = some .dir) :
    ∀ e fs', mkdirList fs ds = (e, fs') → fsGet fs' q = some .dir := by
  induction ds generalizing fs with
  | nil => intro e fs' hm; cases hm; exact h
  | cons d rest ih =>
    intro e fs' hm
    unfold mkdirList at hm
    split at hm
    next e₁ fs₁ heqm =>
      have hres := mkdirAllGo_preserves_dir (cleanParts d) [] fs q h (some e₁) fs₁ heqm
      cases hm
      exact hres
    next fs₁ heqm =>
      have h₁ := mkdirAllGo_preserves_dir (cleanParts d) [] fs q h none fs₁ heqm
      exact ih fs₁ h₁ e fs' hm

theorem mkdirList_dirs (ds : List String) (fs fs' : FS)
    (h : mkdirList fs ds = (none, fs')) :
    ∀ d ∈ ds, ∀ q ∈ prefixesFrom [] (cleanParts d), fsGet fs' q = some .dir := by
  induction ds generalizing fs with
  | nil => intro d hd; simp at hd
  | cons d₀ rest ih =>
    intro d hd q hq
    unfold mkdirList at h
    split at h
    next e₁ fs₁ heqm => exact absurd h (by simp)
    next fs₁ heqm =>
      rcases List.mem_cons.mp hd with hd | hd
      · subst hd
        have hdir₁ := mkdirAllGo_dirs (cleanParts d) [] fs fs₁ heqm q hq
        exact mkdirList_preserves_dir rest fs₁ q hdir₁ none fs' h
      · exact ih fs₁ h d hd q hq

theorem CTS_eq (fs : FS) (name : String) (t : Target) (fs₁ : FS)
    (hfind : GetAllTargets.find? (fun x => x.name = name) = some t)
    (hm : mkdirList fs GetRequiredDirectories = (none, fs₁)) :
    CreateTargetSymlinks fs name = createLinks fs₁ t.links := by
  unfold CreateTargetSymlinks
  rw [hfind, hm]

theorem CTS_success_shape (fs : FS) (name : String)
    (h : (CreateTargetSymlinks fs name).err = none) :
    ∃ t fs₁, GetAllTargets.find? (fun x => x.name = name) = some t ∧
      mkdirList fs GetRequiredDirectories = (none, fs₁) ∧
      (createLinks fs₁ t.links).err = none := by
  unfold CreateTargetSymlinks at h
  split at h
  · simp at h
  next t hfind =>
    split at h
    next e fs₁ hm => simp at h
    next fs₁ hm => exact ⟨t, fs₁, hfind, hm, h⟩

theorem CTS_rerun_core (name : String) (t : Target) (l : SymlinkDef) (fs fs₁ : FS)
    (hfind : GetAllTargets.find? (fun x => x.name = name) = some t)
    (hlinks : t.links = [l])
    (hm : mkdirList fs GetRequiredDirectories = (none, fs₁))
    (hcl : (createLinks fs₁ t.links).err = none)
    (hne : ∀ d ∈ GetRequiredDirectories, ∀ q ∈ prefixesFrom [] (cleanParts d),
      q ≠ cleanParts l.target) :
    (CreateTargetSymlinks (CreateTargetSymlinks fs name).fs name).err = none ∧
    (CreateTargetSymlinks (CreateTargetSymlinks fs name).fs name).fs =
      (CreateTargetSymlinks fs name).fs := by
  have hout : CreateTargetSymlinks fs name = createLinks fs₁ t.links :=
    CTS_eq fs name t fs₁ hfind hm
  rw [hlinks] at hout hcl
  rw [createLinks_single] at hout hcl
  dsimp only at hcl
  have hnoop : mkdirList (createSymlink fs₁ l.source l.target).fs GetRequiredDirectories =
      (none, (createSymlink fs₁ l.source l.target).fs) := by
    apply mkdirList_noop
    intro d hd q hq
    exact createSymlink_preserves_dir fs₁ l.source l.target q (hne d hd q hq)
      (mkdirList_dirs GetRequiredDirectories fs fs₁ hm d hd q hq)
  have hre := createSymlink_rerun fs₁ l.source l.target hcl
  have hout₂ : CreateTargetSymlinks (createSymlink fs₁ l.source l.target).fs name =
      createLinks (createSymlink fs₁ l.source l.target).fs t.links :=
    CTS_eq _ name t _ hfind hnoop
  rw [hlinks, createLinks_single] at hout₂
  simp only [hre] at hout₂
  constructor
  · rw [hout]
    dsimp only
    rw [hout₂]
  · rw [hout]
    dsimp only
    rw [hout₂]

/-- C6: calling CreateTargetSymlinks twice in a row leaves the filesystem
in the same state as calling it once and the second call returns no error;
re-creating an existing correct link is an observational no-op on the
filesystem; and re-removing an absent link succeeds as a no-op. -/
theorem createTargetSymlinks_idempotent :
    (∀ name fs, (CreateTargetSymlinks fs name).err = none →
      (CreateTargetSymlinks (CreateTargetSymlinks fs name).fs name).err = none ∧
      (CreateTargetSymlinks (CreateTargetSymlinks fs name).fs name).fs =
        (CreateTargetSymlinks fs name).fs) ∧
    (∀ fs src tgt, fsGet fs (cleanParts tgt) = some (.symlink (cleanStr src)) →
      (∀ q ∈ prefixesFrom [] (dirParts (cleanParts tgt)), fsGet fs q = some .dir) →
      (createSymlink fs src tgt).err = none ∧
      ∀ q, fsGet (createSymlink fs src tgt).fs q = fsGet fs q) ∧
    (∀ fs p, fsGet fs (cleanParts p) = none → removeSymlink fs p = ⟨none, fs, []⟩) := by
  refine ⟨?_, ?_, ?_⟩
  · intro name fs h
    obtain ⟨t, fs₁, hfind, hm, hcl⟩ := CTS_success_shape fs name h
    have ht : t ∈ GetAllTargets := List.mem_of_find?_eq_some hfind
    simp only [GetAllTargets, List.mem_cons, List.not_mem_nil, or_false] at ht
    rcases ht with ht | ht | ht | ht <;> subst ht <;>
      exact CTS_rerun_core name _ _ fs fs₁ hfind rfl hm hcl (by decide)
  · intro fs src tgt hlink hdirs
    have h1 : removeSymlinkP fs (cleanParts tgt) (cleanStr tgt) =
        ⟨none, fsErase fs (cleanParts tgt), [.linkRemove (cleanParts tgt)]⟩ :=
      removeSymlinkP_eq_link fs (cleanParts tgt) (cleanStr tgt) (cleanStr src) hlink
    have h2 : (if dirParts (cleanParts tgt) = [] then
          ((none : Option String), fsErase fs (cleanParts tgt))
        else mkdirAll (fsErase fs (cleanParts tgt)) (dirParts (cleanParts tgt))) =
        (none, fsErase fs (cleanParts tgt)) := by
      by_cases htd : dirParts (cleanParts tgt) = []
      · rw [if_pos htd]
      · rw [if_neg htd]
        exact mkdirAllGo_noop (dirParts (cleanParts tgt)) [] _ (fun q hq => by
          rw [fsGet_erase_ne fs (cleanParts tgt) q
            (mem_prefixesFrom_dropLast_ne (cleanParts tgt) q hq)]
          exact hdirs q hq)
    have h3 : fsGet (fsErase fs (cleanParts tgt)) (cleanParts tgt) = none :=
      fsGet_erase_self fs (cleanParts tgt)
    have hout := createSymlink_eq fs src tgt (fsErase fs (cleanParts tgt))
      (fsErase fs (cleanParts tgt)) [.linkRemove (cleanParts tgt)] h1 h2 h3
    rw [hout]
    refine ⟨rfl, ?_⟩
    intro q
    dsimp only
    by_cases hq : q = cleanParts tgt
    · subst hq
      rw [fsGet_set_self, hlink]
    · rw [fsGet_set_ne _ _ _ _ hq, fsGet_erase_ne _ _ _ hq]
  · intro fs p h
    simp [removeSymlink, removeSymlinkP, h]

/-- Witness for the idempotence theorem: a second creation of the amazonq
symlinks on the result of the first returns no error and leaves the
filesystem identical, and removing an absent link is a no-op. -/
theorem createTargetSymlinks_idempotent_witness :
    ((CreateTargetSymlinks (CreateTargetSymlinks [] "amazonq").fs "amazonq").err = none ∧
      (CreateTargetSymlinks (CreateTargetSymlinks [] "amazonq").fs "amazonq").fs =
        (CreateTargetSymlinks [] "amazonq").fs) ∧
    removeSymlink [] "CLAUDE.md" = ⟨none, [], []⟩ :=
  ⟨createTargetSymlinks_idempotent.1 "amazonq" [] (by decide),
    createTargetSymlinks_idempotent.2.2 [] "CLAUDE.md" (by decide)⟩

/-- C8 amended: saving a config with a valid mode and any target list whose
marshalled document fits the 1 MiB load bound and then loading yields back
exactly the same targets (order and members) and mode. -/
theorem config_roundtrip (st : St) (T : List String) (m : String)
    (hm : m = "local" ∨ m = "public")
    (hsize : yamlLen ⟨m, T⟩ ≤ maxConfigSize) :
    loadConfig (saveConfig st ⟨m, T⟩) = .ok ⟨m, T⟩ := by
  have hnot : ¬ yamlLen (⟨m, T⟩ : Config) > maxConfigSize := by omega
  rcases hm with hm | hm <;> subst hm <;> simp [loadConfig, saveConfig, hnot]

/-- Witness for the config round-trip theorem at a concrete list and
mode. -/
theorem config_roundtrip_witness :
    loadConfig (saveConfig ⟨[], none, []⟩ ⟨"public", ["claude", "claude"]⟩) =
      .ok ⟨"public", ["claude", "claude"]⟩ :=
  config_roundtrip ⟨[], none, []⟩ ["claude", "claude"] "public" (Or.inr rfl) (by decide)

/-- Marshalled size of a config whose target list is a replicated name. -/
theorem yamlLen_replicate (m s : String) (n : Nat) :
    yamlLen ⟨m, List.replicate n s⟩ = 16 + m.length + n * (7 + s.length) := by
  induction n with
  | zero => simp [yamlLen]; omega
  | succ k ih =>
    simp only [yamlLen, List.replicate_succ, List.map_cons, List.sum_cons] at ih ⊢
    rw [Nat.succ_mul]
    omega

/-- C8 counterexample: for the 120000-entry target list, saving succeeds
but the saved document exceeds the 1 MiB bound, so loading fails instead of
returning the list: the round trip does not hold for every target list. -/
theorem config_roundtrip_cex :
    loadConfig (saveConfig ⟨[], none, []⟩ ⟨"local", bigTargets⟩) ≠ .ok ⟨"local", bigTargets⟩ := by
  have hbig : yamlLen (⟨"local", bigTargets⟩ : Config) > maxConfigSize := by
    have h := yamlLen_replicate "local" "claude" 120000
    rw [show ("local" : String).length = 5 from rfl,
      show ("claude" : String).length = 6 from rfl] at h
    rw [bigTargets.eq_1, h]
    norm_num [maxConfigSize]
  have herr : loadConfig (saveConfig ⟨[], none, []⟩ ⟨"local", bigTargets⟩) =
      .error "config file too large" := by
    simp only [saveConfig, loadConfig]
    rw [if_pos hbig]
  rw [herr]
  simp

/-! # Helper lemmas for the ignore-section rewriter -/

theorem splitChar_nil (sep : Char) : splitChar sep [] = [[]] := rfl

theorem splitChar_cons_self (sep : Char) (r : List Char) :
    splitChar sep (sep :: r) = [] :: splitChar sep r := by
  simp [splitChar]

theorem splitChar_cons_ne (sep c : Char) (r : List Char) (hc : ¬ c = sep)
    (h₀ : List Char) (t : List (List Char)) (hx : splitChar sep r = h₀ :: t) :
    splitChar sep (c :: r) = (c :: h₀) :: t := by
  simp [splitChar, hc, hx]

theorem splitChar_ne_nil (sep : Char) (s : List Char) : splitChar sep s ≠ [] := by
  induction s with
  | nil => simp [splitChar]
  | cons c rest ih =>
    by_cases hc : c = sep
    · subst hc
      rw [splitChar_cons_self]
      simp
    · rcases hx : splitChar sep rest with _ | ⟨h₀, t⟩
      · exact absurd hx ih
      · rw [splitChar_cons_ne sep c rest hc h₀ t hx]
        simp

theorem splitChar_append_sep (sep : Char) (x y : List Char) :
    splitChar sep (x ++ sep :: y) = splitChar sep x ++ splitChar sep y := by
  induction x with
  | nil =>
    rw [List.nil_append, splitChar_cons_self, splitChar_nil]
    rfl
  | cons a x' ih =>
    by_cases ha : a = sep
    · subst ha
      rw [List.cons_append, splitChar_cons_self, splitChar_cons_self, ih]
      rfl
    · rcases hx : splitChar sep x' with _ | ⟨h₀, t⟩
      · exact absurd hx (splitChar_ne_nil sep x')
      · rw [List.cons_append,
          splitChar_cons_ne sep a (x' ++ sep :: y) ha h₀ (t ++ splitChar sep y)
            (by rw [ih, hx]; rfl),
          splitChar_cons_ne sep a x' ha h₀ t hx]
        rfl

theorem joinChar_split (sep : Char) (s : List Char) :
    joinChar sep (splitChar sep s) = s := by
  induction s with
  | nil => rfl
  | cons c rest ih =>
    by_cases hc : c = sep
    · subst hc
      rw [splitChar_cons_self]
      rcases hx : splitChar c rest with _ | ⟨h₀, t⟩
      · exact absurd hx (splitChar_ne_nil c rest)
      · rw [hx] at ih
        rw [show joinChar c ([] :: h₀ :: t) = [] ++ c :: joinChar c (h₀ :: t) from rfl,
          ih]
        rfl
    · rcases hx : splitChar sep rest with _ | ⟨h₀, t⟩
      · exact absurd hx (splitChar_ne_nil sep rest)
      · rw [splitChar_cons_ne sep c rest hc h₀ t hx]
        rw [hx] at ih
        cases t with
        | nil =>
          rw [show joinChar sep [c :: h₀] = c :: h₀ from rfl]
          rw [show joinChar sep [h₀] = h₀ from rfl] at ih
          rw [ih]
        | cons t₀ ts =>
          rw [show joinChar sep ((c :: h₀) :: t₀ :: ts) =
            (c :: h₀) ++ sep :: joinChar sep (t₀ :: ts) from rfl]
          rw [show joinChar sep (h₀ :: t₀ :: ts) =
            h₀ ++ sep :: joinChar sep (t₀ :: ts) from rfl] at ih
          rw [show (c :: h₀) ++ sep :: joinChar sep (t₀ :: ts) =
            c :: (h₀ ++ sep :: joinChar sep (t₀ :: ts)) from rfl, ih]

theorem noSep_of_mem_splitChar (sep : Char) (s : List Char) (l : List Char)
    (h : l ∈ splitChar sep s) : sep ∉ l := by
  induction s generalizing l with
  | nil =>
    rw [splitChar_nil] at h
    simp at h
    subst h
    simp
  | cons c rest ih =>
    by_cases hc : c = sep
    · subst hc
      rw [splitChar_cons_self] at h
      simp only [List.mem_cons] at h
      rcases h with h | h
      · subst h; simp
      · exact ih l h
    · rcases hx : splitChar sep rest with _ | ⟨h₀, t⟩
      · exact absurd hx (splitChar_ne_nil sep rest)
      · rw [splitChar_cons_ne sep c rest hc h₀ t hx] at h
        simp only [List.mem_cons] at h
        rcases h with h | h
        · subst h
          intro hmem
          simp only [List.mem_cons] at hmem
          rcases hmem with hmem | hmem
          · exact hc hmem.symm
          · exact ih h₀ (by rw [hx]; exact List.mem_cons_self h₀ t) hmem
        · exact ih l (by rw [hx]; exact List.mem_cons_of_mem h₀ h)

theorem splitChar_no_sep (sep : Char) (l : List Char) (h : sep ∉ l) :
    splitChar sep l = [l] := by
  induction l with
  | nil => rfl
  | cons c rest ih =>
    have hc : ¬ c = sep := by
      intro hcc
      exact h (by rw [hcc]; exact List.mem_cons_self sep rest)
    have hrest := ih (fun hmem => h (List.mem_cons_of_mem c hmem))
    rw [splitChar_cons_ne sep c rest hc rest [] hrest]

theorem splitChar_joinChar (sep : Char) (L : List (List Char))
    (hno : ∀ l ∈ L, sep ∉ l) (hne : L ≠ []) :
    splitChar sep (joinChar sep L) = L := by
  induction L with
  | nil => exact absurd rfl hne
  | cons l rest ih =>
    cases rest with
    | nil =>
      rw [show joinChar sep [l] = l from rfl]
      exact splitChar_no_sep sep l (hno l (List.mem_cons_self l []))
    | cons l₂ rest₂ =>
      rw [show joinChar sep (l :: l₂ :: rest₂) = l ++ sep :: joinChar sep (l₂ :: rest₂)
        from rfl]
      rw [splitChar_append_sep]
      rw [splitChar_no_sep sep l (hno l (List.mem_cons_self l _))]
      rw [ih (fun x hx => hno x (List.mem_cons_of_mem l hx)) (by simp)]
      rfl

theorem splitChar_head_prefix (sep : Char) (s : List Char) (h₀ : List Char)
    (t : List (List Char)) (h : splitChar sep s = h₀ :: t) : ∃ z, s = h₀ ++ z := by
  induction s generalizing h₀ t with
  | nil =>
    rw [splitChar_nil] at h
    cases h
    exact ⟨[], rfl⟩
  | cons c rest ih =>
    by_cases hc : c = sep
    · subst hc
      rw [splitChar_cons_self] at h
      cases h
      exact ⟨c :: rest, rfl⟩
    · rcases hx : splitChar sep rest with _ | ⟨g₀, g₁⟩
      · exact absurd hx (splitChar_ne_nil sep rest)
      · rw [splitChar_cons_ne sep c rest hc g₀ g₁ hx] at h
        cases h
        obtain ⟨z, hz⟩ := ih g₀ t hx
        exact ⟨z, by rw [List.cons_append, ← hz]⟩

theorem containsSub_nil (p : List Char) : containsSub [] p = p.isPrefixOf [] := rfl

theorem containsSub_cons (c : Char) (rest p : List Char) :
    containsSub (c :: rest) p = (p.isPrefixOf (c :: rest) || containsSub rest p) := rfl

theorem containsSub_append_right (x y p : List Char)
    (h : containsSub y p = true) : containsSub (x ++ y) p = true := by
  induction x with
  | nil => exact h
  | cons c x' ih =>
    rw [List.cons_append, containsSub_cons, ih]
    simp

theorem not_contains_no_prefix_line (s p : List Char)
    (h : containsSub s p = false) :
    ∀ l ∈ splitChar '\n' s, p.isPrefixOf l = false := by
  induction s generalizing p with
  | nil =>
    intro l hl
    rw [splitChar_nil] at hl
    simp at hl
    subst hl
    rw [← containsSub_nil]
    exact h
  | cons c rest ih =>
    intro l hl
    rw [containsSub_cons] at h
    have hsplit := Bool.or_eq_false_iff.mp h
    by_cases hc : c = '\n'
    · subst hc
      rw [splitChar_cons_self] at hl
      simp only [List.mem_cons] at hl
      rcases hl with hl | hl
      · subst hl
        rcases hp : p.isPrefixOf ([] : List Char) with _ | _
        · rfl
        · have hp0 : p = [] := by
            cases p with
            | nil => rfl
            | cons a b => simp [List.isPrefixOf] at hp
          subst hp0
          simpa [List.isPrefixOf] using hsplit.1
      · exact ih p hsplit.2 l hl
    · rcases hx : splitChar '\n' rest with _ | ⟨h₀, t⟩
      · exact absurd hx (splitChar_ne_nil '\n' rest)
      · rw [splitChar_cons_ne '\n' c rest hc h₀ t hx] at hl
        simp only [List.mem_cons] at hl
        rcases hl with hl | hl
        · subst hl
          rcases hp : p.isPrefixOf (c :: h₀) with _ | _
          · rfl
          · exfalso
            rw [List.isPrefixOf_iff_prefix] at hp
            cases p with
            | nil => simpa [List.isPrefixOf] using hsplit.1
            | cons a p' =>
              rw [List.cons_prefix_cons] at hp
              obtain ⟨z, hz⟩ := splitChar_head_prefix '\n' rest h₀ t hx
              have hpre : (a :: p').isPrefixOf (c :: rest) = true := by
                rw [List.isPrefixOf_iff_prefix, List.cons_prefix_cons]
                refine ⟨hp.1, ?_⟩
                rw [hz]
                exact hp.2.trans (List.prefix_append h₀ z)
              rw [hpre] at hsplit
              exact Bool.true_eq_false.mp hsplit.1
        · exact ih p hsplit.2 l (by rw [hx]; exact List.mem_cons_of_mem h₀ hl)

theorem containsSub_of_isPrefixOf (s p : List Char) (h : p.isPrefixOf s = true) :
    containsSub s p = true := by
  cases s with
  | nil => rw [containsSub_nil]; exact h
  | cons c rest => rw [containsSub_cons, h]; rfl

theorem trimNl_append_newline (s : List Char) : trimNl (s ++ ['\n']) = trimNl s := by
  unfold trimNl
  rw [List.reverse_append]
  simp [List.dropWhile_cons]

theorem head_dropWhile_false (p : Char → Bool) (x : List Char) (a : Char)
    (h : (x.dropWhile p).head? = some a) : p a = false := by
  induction x with
  | nil => simp at h
  | cons c x' ih =>
    rw [List.dropWhile_cons] at h
    cases hc : p c with
    | true => rw [hc] at h; simp at h; exact ih h
    | false =>
      rw [hc] at h
      simp at h
      rw [← h]
      exact hc

theorem getLast?_eq_reverse_head? (s : List Char) : s.getLast? = s.reverse.head? := by
  have := List.getLast?_reverse (l := s.reverse)
  rwa [List.reverse_reverse] at this

theorem trimNl_getLast_ne (s : List Char) (h : trimNl s ≠ []) :
    (trimNl s).getLast? ≠ some '\n' := by
  unfold trimNl at h ⊢
  rw [List.getLast?_reverse]
  cases hh : ((s.reverse).dropWhile (fun c => c = '\n')).head? with
  | none => simp
  | some a =>
    have ha := head_dropWhile_false _ _ a hh
    simp only [decide_eq_false_iff_not] at ha
    simp [ha]

theorem trimNl_of_getLast_ne (s : List Char) (h : s.getLast? ≠ some '\n') :
    trimNl s = s := by
  unfold trimNl
  cases hs : s.reverse with
  | nil =>
    have : s = [] := by
      have := congrArg List.reverse hs
      rwa [List.reverse_reverse] at this
    rw [this]
    rfl
  | cons a x =>
    have ha : a ≠ '\n' := by
      intro haa
      apply h
      rw [getLast?_eq_reverse_head?, hs, haa]
      rfl
    rw [List.dropWhile_cons, if_neg (by simp [ha]), ← hs, List.reverse_reverse]

theorem dropTrailingNils_mem (S : List (List Char)) (l : List Char)
    (h : l ∈ dropTrailingNils S) : l ∈ S := by
  unfold dropTrailingNils at h
  rw [List.mem_reverse] at h
  rw [← List.mem_reverse]
  exact (List.dropWhile_sublist _).subset h

theorem joinChar_snoc_ne (sep : Char) (S : List (List Char)) (l : List Char)
    (h : S ≠ []) : joinChar sep (S ++ [l]) = joinChar sep S ++ sep :: l := by
  induction S with
  | nil => exact absurd rfl h
  | cons a S' ih =>
    cases S' with
    | nil => rfl
    | cons b S'' =>
      rw [show ((a :: b :: S'') ++ [l]) = a :: ((b :: S'') ++ [l]) from rfl]
      rw [show (b :: S'') ++ [l] = b :: (S'' ++ [l]) from rfl]
      rw [show joinChar sep (a :: b :: (S'' ++ [l])) =
        a ++ sep :: joinChar sep (b :: (S'' ++ [l])) from rfl]
      rw [show (b : List Char) :: (S'' ++ [l]) = (b :: S'') ++ [l] from rfl]
      rw [ih (by simp)]
      rw [show joinChar sep (a :: b :: S'') = a ++ sep :: joinChar sep (b :: S'') from rfl]
      simp [List.append_assoc]

theorem dropTrailingNils_snoc_nil (S : List (List Char)) :
    dropTrailingNils (S ++ [[]]) = dropTrailingNils S := by
  unfold dropTrailingNils
  rw [List.reverse_append]
  simp [List.dropWhile_cons]

theorem dropTrailingNils_snoc_ne (S : List (List Char)) (l : List Char) (h : l ≠ []) :
    dropTrailingNils (S ++ [l]) = S ++ [l] := by
  unfold dropTrailingNils
  rw [List.reverse_append]
  simp only [List.reverse_singleton, List.singleton_append, List.dropWhile_cons]
  rw [if_neg (by simp [h])]
  simp

theorem trimNl_join_dropTrailingNils (S : List (List Char))
    (h : ∀ l ∈ S, '\n' ∉ l) :
    trimNl (joinChar '\n' S) = joinChar '\n' (dropTrailingNils S) := by
  induction S using List.reverseRecOn with
  | nil => rfl
  | append_singleton S l ih =>
    by_cases hl : l = []
    · subst hl
      rw [dropTrailingNils_snoc_nil]
      cases hS : S with
      | nil => rfl
      | cons a S' =>
        rw [← hS, joinChar_snoc_ne '\n' S [] (by rw [hS]; simp)]
        rw [show ('\n' : Char) :: ([] : List Char) = ['\n'] from rfl]
        rw [trimNl_append_newline]
        exact ih (fun x hx => h x (List.mem_append_left _ hx))
    · rw [dropTrailingNils_snoc_ne S l hl]
      apply trimNl_of_getLast_ne
      have hlast : (joinChar '\n' (S ++ [l])).getLast? = l.getLast? := by
        cases hS : S with
        | nil => rfl
        | cons a S' =>
          rw [← hS, joinChar_snoc_ne '\n' S l (by rw [hS]; simp)]
          rw [List.getLast?_append_of_ne_nil _ (show ('\n' : Char) :: l ≠ [] by simp)]
          cases l with
          | nil => exact absurd rfl hl
          | cons b l' => rw [List.getLast?_cons_cons]
      rw [hlast]
      cases hgl : l.getLast? with
      | none => simp
      | some a =>
        have hmem : a ∈ l := by
          have heq := List.dropLast_append_getLast? (l := l) a
            (by simp [Option.mem_def, hgl])
          rw [← heq]
          simp
        have hne : a ≠ '\n' := fun haa =>
          h l (List.mem_append_right S (List.mem_cons_self l [])) (haa ▸ hmem)
        simp [hne]

theorem stripLines_cons_header (b : Bool) (l : List Char) (ls : List (List Char))
    (h : sectionHeaderMark.isPrefixOf l = true) :
    stripLines b (l :: ls) = stripLines true ls := by
  conv_lhs => rw [stripLines]
  rw [if_pos h]

theorem stripFlag_cons_header (b : Bool) (l : List Char) (ls : List (List Char))
    (h : sectionHeaderMark.isPrefixOf l = true) :
    stripFlag b (l :: ls) = stripFlag true ls := by
  conv_lhs => rw [stripFlag]
  rw [if_pos h]

theorem stripLines_cons_keep (l : List Char) (ls : List (List Char))
    (h : sectionHeaderMark.isPrefixOf l = false) :
    stripLines false (l :: ls) = l :: stripLines false ls := by
  conv_lhs => rw [stripLines]
  rw [if_neg (by simp [h])]
  rfl

theorem stripFlag_cons_keep (l : List Char) (ls : List (List Char))
    (h : sectionHeaderMark.isPrefixOf l = false) :
    stripFlag false (l :: ls) = stripFlag false ls := by
  conv_lhs => rw [stripFlag]
  rw [if_neg (by simp [h])]
  rfl

theorem stripLines_cons_true_end (l : List Char) (ls : List (List Char))
    (h : sectionHeaderMark.isPrefixOf l = false)
    (h2 : l.head? = some '#' ∧ ¬ (containsSub l vibWord = true)) :
    stripLines true (l :: ls) = l :: stripLines false ls := by
  conv_lhs => rw [stripLines]
  rw [if_neg (by simp [h]), if_pos rfl, if_pos h2]

theorem stripFlag_cons_true_end (l : List Char) (ls : List (List Char))
    (h : sectionHeaderMark.isPrefixOf l = false)
    (h2 : l.head? = some '#' ∧ ¬ (containsSub l vibWord = true)) :
    stripFlag true (l :: ls) = stripFlag false ls := by
  conv_lhs => rw [stripFlag]
  rw [if_neg (by simp [h]), if_pos rfl, if_pos h2]

theorem stripLines_cons_true_skip (l : List Char) (ls : List (List Char))
    (h : sectionHeaderMark.isPrefixOf l = false)
    (h2 : ¬ (l.head? = some '#' ∧ ¬ (containsSub l vibWord = true))) :
    stripLines true (l :: ls) = stripLines true ls := by
  conv_lhs => rw [stripLines]
  rw [if_neg (by simp [h]), if_pos rfl, if_neg h2]

theorem stripFlag_cons_true_skip (l : List Char) (ls : List (List Char))
    (h : sectionHeaderMark.isPrefixOf l = false)
    (h2 : ¬ (l.head? = some '#' ∧ ¬ (containsSub l vibWord = true))) :
    stripFlag true (l :: ls) = stripFlag true ls := by
  conv_lhs => rw [stripFlag]
  rw [if_neg (by simp [h]), if_pos rfl, if_neg h2]

theorem stripLines_append (A B : List (List Char)) :
    ∀ b, stripLines b (A ++ B) = stripLines b A ++ stripLines (stripFlag b A) B := by
  induction A with
  | nil => intro b; rfl
  | cons l A' ih =>
    intro b
    rw [List.cons_append]
    cases h1 : sectionHeaderMark.isPrefixOf l with
    | true =>
      rw [stripLines_cons_header b l _ h1, stripLines_cons_header b l A' h1,
        stripFlag_cons_header b l A' h1]
      exact ih true
    | false =>
      cases b with
      | false =>
        rw [stripLines_cons_keep l _ h1, stripLines_cons_keep l A' h1,
          stripFlag_cons_keep l A' h1, ih false]
        rfl
      | true =>
        by_cases h2 : l.head? = some '#' ∧ ¬ (containsSub l vibWord = true)
        · rw [stripLines_cons_true_end l _ h1 h2, stripLines_cons_true_end l A' h1 h2,
            stripFlag_cons_true_end l A' h1 h2, ih false]
          rfl
        · rw [stripLines_cons_true_skip l _ h1 h2, stripLines_cons_true_skip l A' h1 h2,
            stripFlag_cons_true_skip l A' h1 h2]
          exact ih true

theorem mem_stripLines (L : List (List Char)) :
    ∀ b l, l ∈ stripLines b L → l ∈ L := by
  induction L with
  | nil => intro b l h; simp [stripLines] at h
  | cons l₀ L' ih =>
    intro b l h
    cases h1 : sectionHeaderMark.isPrefixOf l₀ with
    | true =>
      rw [stripLines_cons_header b l₀ L' h1] at h
      exact List.mem_cons_of_mem l₀ (ih true l h)
    | false =>
      cases b with
      | false =>
        rw [stripLines_cons_keep l₀ L' h1] at h
        rcases List.mem_cons.mp h with h | h
        · subst h; exact List.mem_cons_self l L'
        · exact List.mem_cons_of_mem l₀ (ih false l h)
      | true =>
        by_cases h2 : l₀.head? = some '#' ∧ ¬ (containsSub l₀ vibWord = true)
        · rw [stripLines_cons_true_end l₀ L' h1 h2] at h
          rcases List.mem_cons.mp h with h | h
          · subst h; exact List.mem_cons_self l L'
          · exact List.mem_cons_of_mem l₀ (ih false l h)
        · rw [stripLines_cons_true_skip l₀ L' h1 h2] at h
          exact List.mem_cons_of_mem l₀ (ih true l h)

theorem stripLines_no_header (L : List (List Char)) :
    ∀ b l, l ∈ stripLines b L → sectionHeaderMark.isPrefixOf l = false := by
  induction L with
  | nil => intro b l h; simp [stripLines] at h
  | cons l₀ L' ih =>
    intro b l h
    cases h1 : sectionHeaderMark.isPrefixOf l₀ with
    | true =>
      rw [stripLines_cons_header b l₀ L' h1] at h
      exact ih true l h
    | false =>
      cases b with
      | false =>
        rw [stripLines_cons_keep l₀ L' h1] at h
        rcases List.mem_cons.mp h with h | h
        · subst h; exact h1
        · exact ih false l h
      | true =>
        by_cases h2 : l₀.head? = some '#' ∧ ¬ (containsSub l₀ vibWord = true)
        · rw [stripLines_cons_true_end l₀ L' h1 h2] at h
          rcases List.mem_cons.mp h with h | h
          · subst h; exact h1
          · exact ih false l h
        · rw [stripLines_cons_true_skip l₀ L' h1 h2] at h
          exact ih true l h

theorem stripLines_id_of_no_header (L : List (List Char))
    (h : ∀ l ∈ L, sectionHeaderMark.isPrefixOf l = false) :
    stripLines false L = L ∧ stripFlag false L = false := by
  induction L with
  | nil => exact ⟨rfl, rfl⟩
  | cons l₀ L' ih =>
    have h0 := h l₀ (List.mem_cons_self l₀ L')
    have hrest := ih (fun x hx => h x (List.mem_cons_of_mem l₀ hx))
    rw [stripLines_cons_keep l₀ L' h0, stripFlag_cons_keep l₀ L' h0, hrest.1]
    exact ⟨rfl, hrest.2⟩

theorem header_nil_false : sectionHeaderMark.isPrefixOf ([] : List Char) = false := by
  decide

theorem marker_nil_false : localFilesMark.isPrefixOf ([] : List Char) = false := by
  decide

theorem marker_imp_header (l : List Char) (h : localFilesMark.isPrefixOf l = true) :
    sectionHeaderMark.isPrefixOf l = true := by
  rw [List.isPrefixOf_iff_prefix] at h ⊢
  exact (List.isPrefixOf_iff_prefix.mp
    (show sectionHeaderMark.isPrefixOf localFilesMark = true by decide)).trans h

theorem sec_shape (m : String) : theSection m = '\n' :: (theSection m).tail := by
  by_cases hm : m = "local"
  · simp only [theSection, if_pos hm]
    decide
  · simp only [theSection, if_neg hm]
    decide

theorem sec_strip_tail (m : String) :
    stripLines false (splitChar '\n' (theSection m).tail) = [] := by
  by_cases hm : m = "local"
  · simp only [theSection, if_pos hm]
    decide
  · simp only [theSection, if_neg hm]
    decide

theorem sec_marker (m : String) : containsSub (theSection m) localFilesMark = true := by
  by_cases hm : m = "local"
  · simp only [theSection, if_pos hm]
    decide
  · simp only [theSection, if_neg hm]
    decide

theorem sec_count (m : String) :
    (splitChar '\n' (theSection m)).countP (fun l => localFilesMark.isPrefixOf l) = 1 := by
  by_cases hm : m = "local"
  · simp only [theSection, if_pos hm]
    decide
  · simp only [theSection, if_neg hm]
    decide

theorem sec_stripRewrite (m : String) : stripRewrite (theSection m) = [] := by
  unfold stripRewrite
  rw [sec_shape m, splitChar_cons_self, stripLines_cons_keep _ _ header_nil_false,
    sec_strip_tail m]
  rfl

theorem hasMarker_append_sec (m : String) (x : List Char) :
    hasMarker (x ++ theSection m) = true := by
  unfold hasMarker
  rw [containsSub_append_right x _ _ (sec_marker m)]
  rfl

theorem hasMarker_false_lf (c : List Char) (h : hasMarker c = false) :
    containsSub c localFilesMark = false := by
  unfold hasMarker at h
  exact (Bool.or_eq_false_iff.mp h).1

theorem splitChar_stripRewrite (c : List Char) (hw : stripRewrite c ≠ []) :
    splitChar '\n' (stripRewrite c) =
      dropTrailingNils (stripLines false (splitChar '\n' c)) := by
  have hnoNl : ∀ l ∈ stripLines false (splitChar '\n' c), '\n' ∉ l := fun l hl =>
    noSep_of_mem_splitChar '\n' c l (mem_stripLines _ false l hl)
  unfold stripRewrite at hw ⊢
  rw [trimNl_join_dropTrailingNils _ hnoNl] at hw ⊢
  apply splitChar_joinChar
  · intro l hl
    exact hnoNl l (dropTrailingNils_mem _ l hl)
  · intro hD
    rw [hD] at hw
    exact hw rfl

theorem stripRewrite_append_sec (m : String) (w : List Char) (hw : w ≠ [])
    (hwl : ∀ l ∈ splitChar '\n' w, sectionHeaderMark.isPrefixOf l = false)
    (hwlast : w.getLast? ≠ some '\n') :
    stripRewrite (ensureNl w ++ theSection m) = w := by
  have hens : ensureNl w = w ++ ['\n'] := by
    unfold ensureNl
    rw [if_pos ⟨hw, hwlast⟩]
  rw [hens]
  unfold stripRewrite
  rw [sec_shape m]
  rw [show (w ++ ['\n']) ++ '\n' :: (theSection m).tail =
    w ++ '\n' :: ('\n' :: (theSection m).tail) from by simp]
  rw [splitChar_append_sep, splitChar_cons_self, stripLines_append]
  obtain ⟨hid, hflag⟩ := stripLines_id_of_no_header (splitChar '\n' w) hwl
  rw [hid, hflag, stripLines_cons_keep _ _ header_nil_false, sec_strip_tail m]
  rw [joinChar_snoc_ne '\n' (splitChar '\n' w) [] (splitChar_ne_nil '\n' w)]
  rw [joinChar_split]
  rw [show ('\n' : Char) :: ([] : List Char) = ['\n'] from rfl]
  rw [trimNl_append_newline]
  exact trimNl_of_getLast_ne w hwlast

theorem addToGitignore_marker_stable (m : String) (c : List Char)
    (h : hasMarker c = true) :
    addToGitignore m (addToGitignore m c) = addToGitignore m c := by
  unfold addToGitignore
  rw [if_pos h, if_pos (hasMarker_append_sec m (ensureNl (stripRewrite c)))]
  by_cases hw : stripRewrite c = []
  · rw [hw]
    rw [show ensureNl [] = [] from rfl, List.nil_append, sec_stripRewrite m]
    rw [show ensureNl [] = [] from rfl, List.nil_append]
  · have hwl : ∀ l ∈ splitChar '\n' (stripRewrite c),
        sectionHeaderMark.isPrefixOf l = false := by
      intro l hl
      rw [splitChar_stripRewrite c hw] at hl
      exact stripLines_no_header _ false l (dropTrailingNils_mem _ l hl)
    have hwlast : (stripRewrite c).getLast? ≠ some '\n' := by
      unfold stripRewrite at hw ⊢
      exact trimNl_getLast_ne _ hw
    rw [stripRewrite_append_sec m (stripRewrite c) hw hwl hwlast]

theorem count_ensure_append_sec (m : String) (s₁ : List Char)
    (hs : ∀ l ∈ splitChar '\n' s₁, localFilesMark.isPrefixOf l = false) :
    (splitChar '\n' (ensureNl s₁ ++ theSection m)).countP
      (fun l => localFilesMark.isPrefixOf l) = 1 := by
  have hzero : ∀ (x : List Char),
      (∀ l ∈ splitChar '\n' x, localFilesMark.isPrefixOf l = false) →
      (splitChar '\n' x).countP (fun l => localFilesMark.isPrefixOf l) = 0 := by
    intro x hx
    rw [List.countP_eq_zero]
    intro a ha
    simp [hx a ha]
  by_cases hcase : s₁ ≠ [] ∧ s₁.getLast? ≠ some '\n'
  · have hens : ensureNl s₁ = s₁ ++ ['\n'] := by
      unfold ensureNl
      rw [if_pos hcase]
    rw [hens, List.append_assoc, show ['\n'] ++ theSection m = '\n' :: theSection m from rfl]
    rw [splitChar_append_sep, List.countP_append, hzero s₁ hs, sec_count m]
  · have hens : ensureNl s₁ = s₁ := by
      unfold ensureNl
      rw [if_neg hcase]
    rw [hens]
    rw [not_and_or] at hcase
    rcases hcase with hcase | hcase
    · rw [not_not.mp hcase, List.nil_append, sec_count m]
    · have hlast : s₁.getLast? = some '\n' := not_not.mp hcase
      have hdl : s₁.dropLast ++ ['\n'] = s₁ :=
        List.dropLast_append_getLast? '\n' (by simp [Option.mem_def, hlast])
      rw [← hdl, List.append_assoc, show ['\n'] ++ theSection m = '\n' :: theSection m from rfl]
      rw [splitChar_append_sep, List.countP_append, sec_count m]
      have hdlines : ∀ l ∈ splitChar '\n' s₁.dropLast, localFilesMark.isPrefixOf l = false := by
        intro l hl
        apply hs
        rw [← hdl, show s₁.dropLast ++ ['\n'] = s₁.dropLast ++ '\n' :: ([] : List Char) from rfl,
          splitChar_append_sep]
        exact List.mem_append_left _ hl
      rw [hzero _ hdlines]

/-- C2 counterexample: on the one-newline file, the first rewrite keeps the
blank line but the second rewrite trims it away, so the rewrite is not
idempotent for every starting content. -/
theorem addToGitignore_not_idempotent :
    addToGitignore "local" (addToGitignore "local" ['\n']) ≠
      addToGitignore "local" ['\n'] := by
  decide

/-- C2 amended: applying the rewrite twice and three times yield identical
content, so the rewrite is idempotent from the first application on; full
one-application idempotence holds for every starting content that already
mentions a recognized section marker (in particular for every file the tool
has previously written); and in every result exactly one line starts with
the local-files header marker of the managed section. -/
theorem addToGitignore_spec (m : String) (c : List Char) :
    addToGitignore m (addToGitignore m (addToGitignore m c)) =
      addToGitignore m (addToGitignore m c) ∧
    (hasMarker c = true →
      addToGitignore m (addToGitignore m c) = addToGitignore m c) ∧
    markerLineCount (addToGitignore m c) = 1 := by
  refine ⟨?_, addToGitignore_marker_stable m c, ?_⟩
  · apply addToGitignore_marker_stable
    unfold addToGitignore
    exact hasMarker_append_sec m _
  · unfold markerLineCount addToGitignore
    by_cases h : hasMarker c = true
    · rw [if_pos h]
      apply count_ensure_append_sec
      intro l hl
      by_cases hwz : stripRewrite c = []
      · rw [hwz] at hl
        rw [splitChar_nil] at hl
        simp at hl
        subst hl
        exact marker_nil_false
      · have hhl : sectionHeaderMark.isPrefixOf l = false := by
          rw [splitChar_stripRewrite c hwz] at hl
          exact stripLines_no_header _ false l (dropTrailingNils_mem _ l hl)
        cases hml : localFilesMark.isPrefixOf l with
        | false => rfl
        | true =>
          rw [marker_imp_header l hml] at hhl
          exact absurd hhl (by simp)
    · rw [if_neg h]
      apply count_ensure_append_sec
      exact not_contains_no_prefix_line c localFilesMark
        (hasMarker_false_lf c (Bool.not_eq_true _ ▸ Bool.of_not_eq_true h))

/-- Witness for the rewrite theorem: rewriting a file that already holds
the local-mode section is idempotent. -/
theorem addToGitignore_spec_witness :
    addToGitignore "local" (addToGitignore "local" sectionLocal) =
      addToGitignore "local" sectionLocal :=
  (addToGitignore_spec "local" sectionLocal).2.1 (by decide)

end Viberules
